import Mathlib

/-!
Verification of the task-scheduling core of the obsidian-maid plugin.

The development shallowly embeds the core of the plugin (task tree
construction, priority resolution, weighted task sampling, and the reorder
engine of the median-split variant) as executable Lean definitions and
proves the specified properties about them.

Modelling conventions:
- A JavaScript Map in insertion order is modelled as a list of tasks in
  insertion order; the map key always equals the position field of the
  stored task, so lookup is List.find? on that field.
- Checkbox states (the listItem.task character) are Option Char; absence
  models an undefined state.
- Dates are modelled as Option Nat; the source only compares them with
  the < and > operators.
- Recursive source functions whose termination depends on data (parent
  chains, children lists) take an explicit fuel argument; theorems show
  the chosen fuel is never exhausted on forests satisfying the builder
  invariants, which is exactly where the source recursion terminates.
-/

namespace Maid

/-- Scheduling-relevant part of the plugin settings, copied from the
MaidPluginSettings interface (status-bar fields are irrelevant to the
task engine and omitted). -/
structure MaidPluginSettings where
  defaultPriority : Int
  priorityInheritance : Bool
  reorderFeatureEnabled : Bool
  deriving Repr, DecidableEq

/-- The Task class: one checklist item with parsed metadata and
parent/child links. -/
structure Task where
  position : Nat
  rawText : String
  state : Option Char
  priority : Option Int
  doneAt : Option Nat
  dueAt : Option Nat
  parentTaskPosition : Option Nat
  children : List Nat
  deriving Repr, DecidableEq

/-- The TaskMap class: the raw position-to-Task map (as an
insertion-ordered task list whose keys are the position fields) together
with the settings. -/
structure TaskMap where
  tasks : List Task
  settings : MaidPluginSettings
  deriving Repr, DecidableEq

/-- TaskMap.getOptional: lookup of a position in the raw map. -/
def TaskMap.getOptional (m : TaskMap) (position : Nat) : Option Task :=
  m.tasks.find? (fun t => t.position == position)

/-- TaskMap.fetchPriority with explicit fuel. The source recursion
climbs parentTaskPosition links; none is returned only when the fuel runs
out, which models the case where the source function would not return.
The source tests the inheritance guard (inheritance on, priority absent,
parent present) before the priority cases; splitting on the priority
first is case-by-case identical, since an explicit priority is returned
unchanged on every path that has one. -/
def TaskMap.fetchPriorityAux (m : TaskMap) : Nat → Nat → Option Int
  | 0, _ => none
  | fuel + 1, position =>
    match m.getOptional position with
    | none => some m.settings.defaultPriority
    | some task =>
      match task.priority with
      | some p => some p
      | none =>
        if m.settings.priorityInheritance then
          match task.parentTaskPosition with
          | some parentPos => m.fetchPriorityAux fuel parentPos
          | none => some m.settings.defaultPriority
        else some m.settings.defaultPriority

/-- TaskMap.fetchPriority. Fuel position + 1 suffices whenever parent
positions strictly decrease (the tree-builder invariant), as proved
below. -/
def TaskMap.fetchPriority (m : TaskMap) (position : Nat) : Option Int :=
  m.fetchPriorityAux (position + 1) position

/-- Total-valued wrapper for fetchPriority, used where larger routines of
the source call fetchPriority as a plain number-valued function. On every
forest with strictly decreasing parent positions it equals the value the
source computes (fetchPriority is some there); the default is only taken
on forests where the source recursion would not terminate. -/
def TaskMap.fetchPriorityI (m : TaskMap) (position : Nat) : Int :=
  (m.fetchPriority position).getD m.settings.defaultPriority

/-- Builder invariant used by the priority resolver: every stored parent
link points to a strictly smaller position (parents precede children in
document order, and positions are line numbers). -/
def parentDecreasing (m : TaskMap) : Bool :=
  m.tasks.all (fun t =>
    match t.parentTaskPosition with
    | none => true
    | some p => decide (p < t.position))

/-- Scenario forest for the inheritance test: root R at position 0 with
explicit priority 5, child C at position 1 with no explicit priority. -/
def rcRoot : Task :=
  { position := 0, rawText := "- [ ] R %prio=5", state := some ' ',
    priority := some 5, doneAt := none, dueAt := none,
    parentTaskPosition := none, children := [1] }

def rcChild : Task :=
  { position := 1, rawText := "- [ ] C", state := some ' ',
    priority := none, doneAt := none, dueAt := none,
    parentTaskPosition := some 0, children := [] }

def rcMapInh : TaskMap :=
  { tasks := [rcRoot, rcChild],
    settings :=
      { defaultPriority := 7, priorityInheritance := true,
        reorderFeatureEnabled := false } }

def rcMapNoInh : TaskMap :=
  { tasks := [rcRoot, rcChild],
    settings :=
      { defaultPriority := 7, priorityInheritance := false,
        reorderFeatureEnabled := false } }

/-- One raw task record as handed to the makeTaskMap loop: the fields
read off a cached listItem together with the metadata parsed from its
raw text. The parent field is the raw listItem.parent number, which the
source treats as a parent line only when it is positive. -/
structure TaskRecord where
  position : Nat
  rawText : String
  state : Option Char
  priority : Option Int
  doneAt : Option Nat
  dueAt : Option Nat
  parent : Int
  deriving Repr, DecidableEq

/-- JavaScript Map.set on the insertion-ordered task list: overwrite in
place when the key is present, append otherwise. -/
def mapSet (tasks : List Task) (task : Task) : List Task :=
  if tasks.any (fun t => t.position == task.position) then
    tasks.map (fun t => if t.position == task.position then task else t)
  else tasks ++ [task]

/-- Per-task update performed by the parentTask.children.push call. -/
def pushFun (parentPos childPos : Nat) (t : Task) : Task :=
  if t.position == parentPos then { t with children := t.children ++ [childPos] } else t

/-- Append childPos to the children of the task stored at parentPos
(the parentTask.children.push call of makeTaskMap). -/
def pushChild (tasks : List Task) (parentPos childPos : Nat) : List Task :=
  tasks.map (pushFun parentPos childPos)

/-- The Task a record is turned into by the makeTaskMap loop body; the
source links a parent only when the raw listItem.parent number is
positive. -/
def recTask (r : TaskRecord) : Task :=
  { position := r.position, rawText := r.rawText, state := r.state,
    priority := r.priority, doneAt := r.doneAt, dueAt := r.dueAt,
    parentTaskPosition := if 0 < r.parent then some r.parent.toNat else none,
    children := [] }

/-- One iteration of the makeTaskMap loop over the list items: build the
Task from the record, and when it declares a parent, link it into the
children of the already-present parent. The source reads the parent with
TaskMap.get, whose failed assertion aborts the whole build; the error
value carries the MissingParent name the specification gives to this
failure. -/
def buildStep (tasks : List Task) (r : TaskRecord) : Except String (List Task) :=
  if 0 < r.parent then
    match tasks.find? (fun t => t.position == r.parent.toNat) with
    | none => Except.error "MissingParent"
    | some _ => Except.ok (mapSet (pushChild tasks r.parent.toNat r.position) (recTask r))
  else Except.ok (mapSet tasks (recTask r))

/-- The makeTaskMap loop over all records. -/
def buildTasks : List Task → List TaskRecord → Except String (List Task)
  | tasks, [] => Except.ok tasks
  | tasks, r :: rs =>
    match buildStep tasks r with
    | Except.error e => Except.error e
    | Except.ok tasks2 => buildTasks tasks2 rs

/-- makeTaskMap: build the forest from the ordered record sequence. -/
def makeTaskMap (settings : MaidPluginSettings) (records : List TaskRecord) :
    Except String TaskMap :=
  match buildTasks [] records with
  | Except.error e => Except.error e
  | Except.ok tasks => Except.ok { tasks := tasks, settings := settings }

/-- Decides whether every record that declares a parent is preceded by a
record carrying that parent position (the well-formed-input condition of
the tree builder). -/
def parentsPrecedeAux : List Nat → List TaskRecord → Bool
  | _, [] => true
  | seen, r :: rs =>
    (decide (r.parent ≤ 0) || seen.contains r.parent.toNat) &&
      parentsPrecedeAux (seen ++ [r.position]) rs

def parentsPrecede (records : List TaskRecord) : Bool :=
  parentsPrecedeAux [] records

/-- Parent links of every stored task are realised in the children list
of the task found at the parent position. -/
def linksOK (tasks : List Task) : Prop :=
  ∀ t ∈ tasks, ∀ p, t.parentTaskPosition = some p →
    ∃ tp, tasks.find? (fun u => u.position == p) = some tp ∧ t.position ∈ tp.children

def c8Records : List TaskRecord :=
  [{ position := 1, rawText := "- [ ] a", state := some ' ', priority := none,
     doneAt := none, dueAt := none, parent := -1 },
   { position := 2, rawText := "- [ ] b", state := some ' ', priority := some 3,
     doneAt := none, dueAt := none, parent := 1 }]

def c8Settings : MaidPluginSettings :=
  { defaultPriority := 0, priorityInheritance := true, reorderFeatureEnabled := false }

def c8Map : TaskMap :=
  match makeTaskMap c8Settings c8Records with
  | Except.ok m => m
  | Except.error _ => { tasks := [], settings := c8Settings }

/-- Eligible (position, weight) pairs collected by the rollTask loop over
the map in insertion order: tasks whose state is the open marker and
whose resolved priority is non-negative. -/
def eligiblePairs (m : TaskMap) : List (Nat × Int) :=
  m.tasks.filterMap (fun task =>
    if task.state ≠ some ' ' then none
    else if m.fetchPriorityI task.position < 0 then none
    else some (task.position, m.fetchPriorityI task.position))

/-- JavaScript Array.reduce with the addition callback and no initial
value, as the source applies it to the weight list: a TypeError is
thrown on an empty array. -/
def jsReduceSum : List Int → Except String Int
  | [] => Except.error "TypeError: Reduce of empty array with no initial value"
  | x :: xs => Except.ok (xs.foldl (fun a b => a + b) x)

/-- The selection walk of rollTask: subtract each weight from the drawn
index and stop at the first pair whose weight exceeds the remaining
index. -/
def rollChoice : List (Nat × Int) → Int → Option Nat
  | [], _ => none
  | (line_index, priority) :: rest, index =>
    if index < priority then some line_index
    else rollChoice rest (index - priority)

/-- Sum of the eligible weights. -/
def totalWeight (m : TaskMap) : Int :=
  ((eligiblePairs m).map (fun x => x.2)).sum

/-- rollTask with the randomly drawn index made explicit: the source
draws index uniformly from [0, total) with Math.random after the total
is known. The returned position is where the cursor is placed; none
means no cursor move. -/
def rollTask (m : TaskMap) (index : Int) : Except String (Option Nat) :=
  match jsReduceSum ((eligiblePairs m).map (fun x => x.2)) with
  | Except.error e => Except.error e
  | Except.ok total_prio =>
    if total_prio < 1 then Except.ok none
    else Except.ok (rollChoice (eligiblePairs m) index)

/-- Forest whose only task is done: the eligible pair list is empty. -/
def allDoneMap : TaskMap :=
  { tasks := [
      { position := 0, rawText := "- [x] done %prio=3", state := some 'x',
        priority := some 3, doneAt := some 1, dueAt := none,
        parentTaskPosition := none, children := [] }],
    settings :=
      { defaultPriority := 0, priorityInheritance := true,
        reorderFeatureEnabled := false } }

/-- Forest for the sampling witness: three open tasks with explicit
priorities 1, 2 and 3 in document order. -/
def c5Map : TaskMap :=
  { tasks :=
      [{ position := 0, rawText := "- [ ] one %prio=1", state := some ' ',
         priority := some 1, doneAt := none, dueAt := none,
         parentTaskPosition := none, children := [] },
       { position := 1, rawText := "- [ ] two %prio=2", state := some ' ',
         priority := some 2, doneAt := none, dueAt := none,
         parentTaskPosition := none, children := [] },
       { position := 2, rawText := "- [ ] three %prio=3", state := some ' ',
         priority := some 3, doneAt := none, dueAt := none,
         parentTaskPosition := none, children := [] }],
    settings :=
      { defaultPriority := 0, priorityInheritance := true,
        reorderFeatureEnabled := false } }

/-- The four bucket kinds of the reorder classification. -/
inductive Bucket
  | unprioritized
  | prioritizedOpen
  | done
  | weird
  deriving Repr, DecidableEq

/-- The if-chain of the classification loop of reorderTaskList, applied
to one task. -/
def classify (t : Task) : Bucket :=
  if (t.state = some ' ' ∨ t.state = none) ∧ t.priority = none then Bucket.unprioritized
  else if t.state = some ' ' ∧ t.priority ≠ none then Bucket.prioritizedOpen
  else if t.state ≠ none then Bucket.done
  else Bucket.weird

/-- Top-level tasks, in map iteration order (the loop skips every task
with a parent). -/
def rootTasks (m : TaskMap) : List Task :=
  m.tasks.filter (fun t => t.parentTaskPosition.isNone)

/-- The positions pushed into one bucket array by the classification
loop, in iteration order. -/
def bucketPositions (m : TaskMap) (b : Bucket) : List Nat :=
  ((rootTasks m).filter (fun t => classify t == b)).map (fun t => t.position)

/-- positionCompare of the source. -/
def positionCompare (firstTaskPosition secondTaskPosition : Nat) : Int :=
  if firstTaskPosition < secondTaskPosition then -1
  else if secondTaskPosition < firstTaskPosition then 1
  else 0

/-- Body of the prioritizedTaskSort comparator, given the two tasks
fetched from the map and the two precomputed resolved priorities. The
early returns of the source are encoded with an Option for the due-date
block that can fall through (equal due dates). -/
def prioritizedTaskSortCore (thisTask otherTask : Task)
    (thisPosition otherPosition : Nat) (thisPriority otherPriority : Int) : Int :=
  let isSamePriority : Bool := thisPriority == otherPriority
  let isOnlyOneDueAt : Bool :=
    (thisTask.dueAt.isNone && otherTask.dueAt.isSome) ||
      (thisTask.dueAt.isSome && otherTask.dueAt.isNone)
  if isSamePriority && isOnlyOneDueAt then
    if thisTask.dueAt.isSome then -1 else 1
  else
    let dueResult : Option Int :=
      match thisTask.dueAt, otherTask.dueAt with
      | some thisDue, some otherDue =>
        if isSamePriority then
          if thisDue < otherDue then some (-1)
          else if otherDue < thisDue then some 1
          else none
        else none
      | _, _ => none
    match dueResult with
    | some r => r
    | none =>
      if thisPriority < otherPriority then 1
      else if otherPriority < thisPriority then -1
      else positionCompare thisPosition otherPosition

/-- prioritizedTaskSort on (position, priority) pairs. The source
fetches both tasks with the asserting TaskMap.get; every position handed
to the comparator during reorder is a key of the map, so the defaulted
branch for a missing task is never taken there. -/
def prioritizedTaskSort (m : TaskMap) (x y : Nat × Int) : Int :=
  match m.getOptional x.1, m.getOptional y.1 with
  | some thisTask, some otherTask =>
    prioritizedTaskSortCore thisTask otherTask x.1 y.1 x.2 y.2
  | _, _ => 0

/-- The done-bucket comparator: doneAt descending when both sides have
it, position ascending otherwise. As for prioritizedTaskSort, the
missing-task branch is unreachable during reorder. -/
def doneCompare (m : TaskMap) (a b : Nat) : Int :=
  match m.getOptional a, m.getOptional b with
  | some firstTask, some secondTask =>
    match firstTask.doneAt, secondTask.doneAt with
    | some d1, some d2 =>
      if d1 < d2 then 1
      else if d2 < d1 then -1
      else positionCompare a b
    | _, _ => positionCompare a b
  | _, _ => 0

/-- Insertion into a sorted list, for the sort model. -/
def insertLe {α : Type} (le : α → α → Bool) (a : α) : List α → List α
  | [] => [a]
  | b :: l => if le a b then a :: b :: l else b :: insertLe le a l

/-- Insertion sort. Array.prototype.sort only promises a permutation
consistent with the comparator; every theorem below uses only the
permutation property. -/
def sortLe {α : Type} (le : α → α → Bool) : List α → List α
  | [] => []
  | a :: l => insertLe le a (sortLe le l)

/-- Sort by a three-way comparator, keeping an element before another
when the comparator is non-positive. -/
def sortByCmp {α : Type} (cmp : α → α → Int) (l : List α) : List α :=
  sortLe (fun a b => decide (cmp a b ≤ 0)) l

/-- The median helper: sort ascending, take the middle element, or the
exact mean of the two middle elements on even length (the source divides
by 2.0; a rational models that division exactly). An empty input throws
the unguarded No inputs error. -/
def median (values : List Int) : Except String Rat :=
  if values.length == 0 then Except.error "No inputs"
  else
    let sorted := sortLe (fun a b => decide (a ≤ b)) values
    let half := sorted.length / 2
    if sorted.length % 2 == 1 then Except.ok ((sorted.getD half 0 : Int) : Rat)
    else Except.ok (((sorted.getD (half - 1) 0 : Int) + (sorted.getD half 0 : Int) : Rat) / 2)

/-- Largest position stored in the map; used to size the fuel of the
tree-walking recursions. -/
def maxPosition (m : TaskMap) : Nat :=
  m.tasks.foldr (fun t acc => max t.position acc) 0

/-- The tab indentation prefix. -/
def tabs (n : Nat) : String :=
  String.mk (List.replicate n '\t')

/-- stringifyTaskPositions: emit each listed task as its rawText line at
the current indentation followed by its children one level deeper, and
record every emitted position in order (the touchedTasks accounting).
A missing position makes the asserting TaskMap.get of the source throw;
the fuel guard models the unbounded recursion on forests that violate
the builder invariants (where the source would not return). -/
def stringifyAux (m : TaskMap) : Nat → List Nat → Nat → Except String (String × List Nat)
  | 0, l, _ => if l.isEmpty then Except.ok ("", []) else Except.error "fuel exhausted"
  | fuel + 1, l, ident =>
    l.foldr
      (fun position acc =>
        match m.getOptional position with
        | none => Except.error "assertion failed"
        | some task =>
          match stringifyAux m fuel task.children (ident + 1) with
          | Except.error e => Except.error e
          | Except.ok (childStr, childTouched) =>
            match acc with
            | Except.error e => Except.error e
            | Except.ok (restStr, restTouched) =>
              Except.ok (tabs ident ++ task.rawText ++ "\n" ++ childStr ++ restStr,
                position :: (childTouched ++ restTouched)))
      (Except.ok ("", []))

/-- Concatenation of a list of strings. -/
def joinStrings : List String → String
  | [] => ""
  | s :: rest => s ++ joinStrings rest

/-- Specification-shaped rendering of one subtree: the rawText of the
task followed by its children, one indentation level deeper, in their
stored (source) order. -/
def renderTree (m : TaskMap) : Nat → Nat → Nat → String
  | 0, _, _ => ""
  | fuel + 1, ident, position =>
    match m.getOptional position with
    | none => ""
    | some task =>
      tabs ident ++ task.rawText ++ "\n" ++
        joinStrings (task.children.map (fun c => renderTree m fuel (ident + 1) c))

/-- Positions of one subtree in emission (preorder, source child order). -/
def preorderTree (m : TaskMap) : Nat → Nat → List Nat
  | 0, _ => []
  | fuel + 1, position =>
    match m.getOptional position with
    | none => []
    | some task => position :: task.children.flatMap (fun c => preorderTree m fuel c)

/-- The (position, resolved priority) pairs of the prioritized-open
bucket, the precomputed priorities array of the source. -/
def reorderPriorities (m : TaskMap) : List (Nat × Int) :=
  (bucketPositions m Bucket.prioritizedOpen).map
    (fun position => (position, m.fetchPriorityI position))

/-- The prioritized-open bucket after the median split: the tasks above
the median and the tasks at or below it, each sorted by the
prioritizedTaskSort comparator, high half first. -/
def finalPrioritizedTasks (m : TaskMap) (priorityMedian : Rat) : List Nat :=
  (sortByCmp (prioritizedTaskSort m)
      ((reorderPriorities m).filter (fun x => decide (priorityMedian < (x.2 : Rat)))) ++
    sortByCmp (prioritizedTaskSort m)
      ((reorderPriorities m).filter (fun x => decide ((x.2 : Rat) ≤ priorityMedian)))).map
    (fun x => x.1)

/-- Serialization stage of the reorder pipeline, given the already
computed priority median: stringify the four bucket lists in output
order and assemble the output string under the section headers together
with the touchedTasks accounting. -/
def reorderEmitWith (m : TaskMap) (priorityMedian : Rat) :
    Except String (String × List Nat) :=
  match stringifyAux m (maxPosition m + 1) (bucketPositions m Bucket.weird) 0 with
  | Except.error e => Except.error e
  | Except.ok (weirdStr, weirdTouched) =>
    match stringifyAux m (maxPosition m + 1)
        (sortByCmp positionCompare (bucketPositions m Bucket.unprioritized)) 0 with
    | Except.error e => Except.error e
    | Except.ok (unpStr, unpTouched) =>
      match stringifyAux m (maxPosition m + 1) (finalPrioritizedTasks m priorityMedian) 0 with
      | Except.error e => Except.error e
      | Except.ok (priStr, priTouched) =>
        match stringifyAux m (maxPosition m + 1)
            (sortByCmp (doneCompare m) (bucketPositions m Bucket.done)) 0 with
        | Except.error e => Except.error e
        | Except.ok (doneStr, doneTouched) =>
          Except.ok
            ((if 0 < (bucketPositions m Bucket.weird).length then
                "# weird (bugs in task selection)\n" ++ weirdStr else "") ++
              "# unprioritized\n" ++ unpStr ++
              "\n# prioritized\n" ++ priStr ++
              "\n# done\n" ++ doneStr,
              weirdTouched ++ unpTouched ++ priTouched ++ doneTouched)

/-- The reorder pipeline up to output generation: the unconditional
median of the prioritized-bucket priorities followed by the
serialization stage. -/
def reorderEmit (m : TaskMap) : Except String (String × List Nat) :=
  match median ((reorderPriorities m).map (fun x => x.2)) with
  | Except.error e => Except.error e
  | Except.ok priorityMedian => reorderEmitWith m priorityMedian

/-- The touched-task accounting after output generation: if any map
position was never emitted, the assertion of the source throws instead
of letting the output be written. -/
def reorderCore (m : TaskMap) : Except String (String × List Nat) :=
  match reorderEmit m with
  | Except.error e => Except.error e
  | Except.ok (output, touched) =>
    if m.tasks.any (fun t => !(touched.contains t.position)) then
      Except.error "assertion failed: an algorithmic error has occoured. most likely a bug"
    else Except.ok (output, touched)

/-- reorderTaskList: the feature gate followed by the reorder pipeline;
the returned string replaces the whole document. none models the early
return when the feature is disabled. -/
def reorderTaskList (m : TaskMap) : Except String (Option String) :=
  if m.settings.reorderFeatureEnabled = false then Except.ok none
  else
    match reorderCore m with
    | Except.error e => Except.error e
    | Except.ok (output, _) => Except.ok (some output)

/-- The single open, explicitly prioritized top-level task of the C6
witness. -/
def c6Task : Task :=
  { position := 0, rawText := "- [ ] t %prio=3", state := some ' ',
    priority := some 3, doneAt := none, dueAt := none,
    parentTaskPosition := none, children := [] }

/-- Forest with one open, explicitly prioritized top-level task. -/
def c6Map : TaskMap :=
  { tasks := [c6Task],
    settings :=
      { defaultPriority := 0, priorityInheritance := true,
        reorderFeatureEnabled := true } }

/-- Task with a due date and resolved priority 1. -/
def dueTaskA : Task :=
  { position := 0, rawText := "- [ ] a %prio=1 %due=2022-01-01", state := some ' ',
    priority := some 1, doneAt := none, dueAt := some 10,
    parentTaskPosition := none, children := [] }

/-- Task without a due date and resolved priority 2. -/
def dueTaskB : Task :=
  { position := 1, rawText := "- [ ] b %prio=2", state := some ' ',
    priority := some 2, doneAt := none, dueAt := none,
    parentTaskPosition := none, children := [] }

def c2Map : TaskMap :=
  { tasks := [dueTaskA, dueTaskB],
    settings :=
      { defaultPriority := 0, priorityInheritance := true,
        reorderFeatureEnabled := true } }

/-- Forest with a single done task and the reorder feature enabled. -/
def c10Map : TaskMap :=
  { tasks := [
      { position := 0, rawText := "- [x] only %prio=2", state := some 'x',
        priority := some 2, doneAt := some 3, dueAt := none,
        parentTaskPosition := none, children := [] }],
    settings :=
      { defaultPriority := 0, priorityInheritance := true,
        reorderFeatureEnabled := true } }

/-- The forest invariants established by the tree builder, as a decidable
check: positions are unique; every parent link points to a smaller
position whose task lists the child in its children; every child entry
points to a larger position whose task links back to the parent; and no
children list has duplicates. -/
def wf (m : TaskMap) : Bool :=
  decide ((m.tasks.map (fun t => t.position)).Nodup) &&
  m.tasks.all (fun t =>
    (match t.parentTaskPosition with
     | none => true
     | some p =>
       match m.getOptional p with
       | none => false
       | some tp => decide (p < t.position) && decide (t.position ∈ tp.children)) &&
    decide t.children.Nodup &&
    t.children.all (fun c =>
      decide (t.position < c) &&
      match m.getOptional c with
      | none => false
      | some tc => tc.parentTaskPosition == some t.position))

/-- Descent relation of the forest: ReachD m r x d means x is reached
from r by following d children links downward. -/
inductive ReachD (m : TaskMap) : Nat → Nat → Nat → Prop
  | refl (r : Nat) : ReachD m r r 0
  | step {r b c : Nat} {d : Nat} {tb : Task} (h : ReachD m r b d)
      (hb : m.getOptional b = some tb) (hc : c ∈ tb.children) : ReachD m r c (d + 1)

/-- Climb d parent links upward. -/
def iterUp (m : TaskMap) : Nat → Nat → Option Nat
  | 0, x => some x
  | j + 1, x =>
    match m.getOptional x with
    | none => none
    | some t =>
      match t.parentTaskPosition with
      | none => none
      | some p => iterUp m j p

/-- A position whose task has no parent link. -/
def isRootPos (m : TaskMap) (r : Nat) : Prop :=
  ∃ tr, m.getOptional r = some tr ∧ tr.parentTaskPosition = none

/-- Positions of the top-level tasks. -/
def rootsPositions (m : TaskMap) : List Nat :=
  (rootTasks m).map (fun t => t.position)

/-- Emission order of the whole forest: every root followed by its
subtree in preorder. -/
def forestPreorder (m : TaskMap) : List Nat :=
  (rootsPositions m).flatMap (fun r => preorderTree m (maxPosition m + 1) r)

/-- Task A of the scenario forest: open, no priority, top level. -/
def scenarioA : Task :=
  { position := 0, rawText := "- [ ] A", state := some ' ',
    priority := none, doneAt := none, dueAt := none,
    parentTaskPosition := none, children := [] }

/-- Task B of the scenario forest: open with priority 3, top level,
with the child C below it. -/
def scenarioB : Task :=
  { position := 1, rawText := "- [ ] B %prio=3", state := some ' ',
    priority := some 3, doneAt := none, dueAt := none,
    parentTaskPosition := none, children := [2] }

/-- Task C of the scenario forest: open, no priority, child of B. -/
def scenarioC : Task :=
  { position := 2, rawText := "- [ ] C", state := some ' ',
    priority := none, doneAt := none, dueAt := none,
    parentTaskPosition := some 1, children := [] }

/-- Scenario forest of the specification: A open without priority,
B open with priority 3 whose subtree holds C, C open without priority. -/
def scenarioMap : TaskMap :=
  { tasks := [scenarioA, scenarioB, scenarioC],
    settings :=
      { defaultPriority := 0, priorityInheritance := true,
        reorderFeatureEnabled := true } }

def scenarioOut : String :=
  match reorderCore scenarioMap with
  | Except.ok (s, _) => s
  | _ => ""

def scenarioTouched : List Nat :=
  match reorderCore scenarioMap with
  | Except.ok (_, t) => t
  | _ => []

def scenarioListOut : String :=
  match reorderTaskList scenarioMap with
  | Except.ok (some s) => s
  | _ => ""

theorem getOptional_eq_some (m : TaskMap) {position : Nat} {t : Task}
    (h : m.getOptional position = some t) : t ∈ m.tasks ∧ t.position = position := by
  refine ⟨List.mem_of_find?_eq_some h, ?_⟩
  have := List.find?_some h
  simpa using this

theorem parentDecreasing_spec {m : TaskMap} (h : parentDecreasing m = true)
    {t : Task} (ht : t ∈ m.tasks) {p : Nat} (hp : t.parentTaskPosition = some p) :
    p < t.position := by
  rw [parentDecreasing, List.all_eq_true] at h
  have := h t ht
  rw [hp] at this
  simpa using this

theorem fetchPriorityAux_mono (m : TaskMap) :
    ∀ fuel fuel2 position v, fuel ≤ fuel2 →
      m.fetchPriorityAux fuel position = some v →
      m.fetchPriorityAux fuel2 position = some v := by
  intro fuel
  induction fuel with
  | zero =>
    intro fuel2 position v _ h
    simp [TaskMap.fetchPriorityAux] at h
  | succ n ih =>
    intro fuel2 position v hle h
    obtain ⟨k, rfl⟩ : ∃ k, fuel2 = k + 1 := ⟨fuel2 - 1, by omega⟩
    simp only [TaskMap.fetchPriorityAux] at h ⊢
    cases hx : m.getOptional position with
    | none => simp only [hx] at h ⊢; exact h
    | some task =>
      simp only [hx] at h ⊢
      cases hpr : task.priority with
      | some q => simp only [hpr] at h ⊢; exact h
      | none =>
        simp only [hpr] at h ⊢
        cases hpi : m.settings.priorityInheritance with
        | false => simp only [hpi, Bool.false_eq_true, if_false] at h ⊢; exact h
        | true =>
          simp only [hpi, if_true] at h ⊢
          cases hpp : task.parentTaskPosition with
          | none => simp only [hpp] at h ⊢; exact h
          | some pp =>
            simp only [hpp] at h ⊢
            exact ih k pp v (by omega) h

theorem fetchPriorityAux_total {m : TaskMap} (hm : parentDecreasing m = true) :
    ∀ position, ∃ v, m.fetchPriorityAux (position + 1) position = some v := by
  intro position
  induction position using Nat.strong_induction_on with
  | _ position ih =>
    simp only [TaskMap.fetchPriorityAux]
    cases hx : m.getOptional position with
    | none => exact ⟨m.settings.defaultPriority, by simp [hx]⟩
    | some task =>
      simp only [hx]
      cases hpr : task.priority with
      | some q => exact ⟨q, rfl⟩
      | none =>
        simp only [hpr]
        cases hpi : m.settings.priorityInheritance with
        | false => exact ⟨m.settings.defaultPriority, by simp⟩
        | true =>
          simp only [if_true]
          cases hpp : task.parentTaskPosition with
          | none => exact ⟨m.settings.defaultPriority, rfl⟩
          | some pp =>
            obtain ⟨htmem, htpos⟩ := getOptional_eq_some m hx
            have hlt : pp < position := by
              have := parentDecreasing_spec hm htmem hpp
              omega
            obtain ⟨v, hv⟩ := ih pp hlt
            exact ⟨v, fetchPriorityAux_mono m (pp + 1) position pp v (by omega) hv⟩

theorem fetchPriority_isSome {m : TaskMap} (hm : parentDecreasing m = true)
    (position : Nat) : ∃ v, m.fetchPriority position = some v :=
  fetchPriorityAux_total hm position

theorem fetchPriorityI_eq {m : TaskMap} (hm : parentDecreasing m = true)
    (position : Nat) : m.fetchPriority position = some (m.fetchPriorityI position) := by
  obtain ⟨v, hv⟩ := fetchPriority_isSome hm position
  rw [TaskMap.fetchPriorityI, hv]
  rfl

/-- C4: fetchPriority follows exactly the specified algorithm: absent
position gives the default priority; with inheritance enabled, no
explicit priority and a parent present it resolves the parent
recursively; otherwise no explicit priority gives the default and an
explicit priority is returned as is. For root R with explicit priority 5
and child C with none, the child resolves to 5 with inheritance on and
to the default priority with inheritance off. -/
theorem fetchPriority_algorithm :
    (∀ m : TaskMap, parentDecreasing m = true → ∀ position,
      (m.getOptional position = none →
        m.fetchPriority position = some m.settings.defaultPriority) ∧
      (∀ t, m.getOptional position = some t →
        (m.settings.priorityInheritance = true → t.priority = none →
          ∀ p, t.parentTaskPosition = some p →
            m.fetchPriority position = m.fetchPriority p) ∧
        (t.priority = none →
          (m.settings.priorityInheritance = false ∨ t.parentTaskPosition = none) →
          m.fetchPriority position = some m.settings.defaultPriority) ∧
        (∀ q, t.priority = some q → m.fetchPriority position = some q))) ∧
    rcMapInh.fetchPriority 1 = some 5 ∧
    rcMapNoInh.fetchPriority 1 = some rcMapNoInh.settings.defaultPriority := by
  refine ⟨?_, by decide, by decide⟩
  intro m hm position
  constructor
  · intro hnone
    simp only [TaskMap.fetchPriority, TaskMap.fetchPriorityAux, hnone]
  · intro t ht
    refine ⟨?_, ?_, ?_⟩
    · intro hpi hpr p hpp
      obtain ⟨htmem, htpos⟩ := getOptional_eq_some m ht
      have hlt : p < position := by
        have := parentDecreasing_spec hm htmem hpp
        omega
      have hstep : m.fetchPriority position = m.fetchPriorityAux position p := by
        simp only [TaskMap.fetchPriority, TaskMap.fetchPriorityAux, ht, hpi, hpr, hpp, if_true]
      obtain ⟨v, hv⟩ := fetchPriorityAux_total hm p
      have hv2 : m.fetchPriorityAux position p = some v :=
        fetchPriorityAux_mono m (p + 1) position p v (by omega) hv
      rw [hstep, hv2, TaskMap.fetchPriority, hv]
    · intro hpr hcase
      rcases hcase with hcase | hcase
      · simp only [TaskMap.fetchPriority, TaskMap.fetchPriorityAux, ht, hpr, hcase,
          Bool.false_eq_true, if_false]
      · cases hpi : m.settings.priorityInheritance with
        | false =>
          simp only [TaskMap.fetchPriority, TaskMap.fetchPriorityAux, ht, hpr, hpi,
            Bool.false_eq_true, if_false]
        | true =>
          simp only [TaskMap.fetchPriority, TaskMap.fetchPriorityAux, ht, hpr, hpi,
            hcase, if_true]
    · intro q hq
      simp only [TaskMap.fetchPriority, TaskMap.fetchPriorityAux, ht, hq]

theorem fetchPriority_algorithm_witness :
    parentDecreasing rcMapInh = true ∧
    TaskMap.getOptional rcMapInh 5 = none ∧
    TaskMap.fetchPriority rcMapInh 5 = some 7 :=
  ⟨by decide, by decide,
    (fetchPriority_algorithm.1 rcMapInh (by decide) 5).1 (by decide)⟩

/-- C9: fetchPriority is total: on every forest whose parent links point
to strictly smaller positions the recursion terminates with an integer
value, independent of any extra fuel supplied. -/
theorem fetchPriority_total_function :
    ∀ m : TaskMap, parentDecreasing m = true → ∀ position, ∃ v : Int,
      m.fetchPriority position = some v ∧
      ∀ fuel, position + 1 ≤ fuel → m.fetchPriorityAux fuel position = some v := by
  intro m hm position
  obtain ⟨v, hv⟩ := fetchPriorityAux_total hm position
  exact ⟨v, hv, fun fuel hfuel => fetchPriorityAux_mono m (position + 1) fuel position v hfuel hv⟩

theorem fetchPriority_total_function_witness :
    parentDecreasing rcMapInh = true ∧
    TaskMap.fetchPriority rcMapInh 1 = some 5 ∧
    TaskMap.fetchPriorityAux rcMapInh 10 1 = some 5 := by
  refine ⟨by decide, by decide, ?_⟩
  obtain ⟨v, h1, h2⟩ := fetchPriority_total_function rcMapInh (by decide) 1
  have hv : v = 5 := by
    have h5 : TaskMap.fetchPriority rcMapInh 1 = some 5 := by decide
    have := h1.symm.trans h5
    simpa using this
  have h3 := h2 10 (by omega)
  rw [hv] at h3
  exact h3

theorem pushFun_position (parentPos childPos : Nat) (t : Task) :
    (pushFun parentPos childPos t).position = t.position := by
  rw [pushFun]
  split <;> rfl

theorem pushFun_parent (parentPos childPos : Nat) (t : Task) :
    (pushFun parentPos childPos t).parentTaskPosition = t.parentTaskPosition := by
  rw [pushFun]
  split <;> rfl

theorem pushFun_children_sub (parentPos childPos : Nat) (t : Task) {c : Nat}
    (hc : c ∈ t.children) : c ∈ (pushFun parentPos childPos t).children := by
  rw [pushFun]
  split
  · exact List.mem_append_left _ hc
  · exact hc

theorem buildTasks_cons (tasks : List Task) (r : TaskRecord) (rs : List TaskRecord) :
    buildTasks tasks (r :: rs) =
      match buildStep tasks r with
      | Except.error e => Except.error e
      | Except.ok tasks2 => buildTasks tasks2 rs := rfl

theorem pushChild_map_position (tasks : List Task) (parentPos childPos : Nat) :
    (pushChild tasks parentPos childPos).map (fun t => t.position) =
      tasks.map (fun t => t.position) := by
  simp only [pushChild, List.map_map]
  refine List.map_congr_left ?_
  intro t _
  simp [Function.comp, pushFun_position]

theorem pushChild_find? (tasks : List Task) (parentPos childPos q : Nat) :
    (pushChild tasks parentPos childPos).find? (fun u => u.position == q) =
      (tasks.find? (fun u => u.position == q)).map (pushFun parentPos childPos) := by
  rw [pushChild, List.find?_map]
  congr 2
  funext t
  simp [Function.comp, pushFun_position]

theorem find?_append_left {tasks l2 : List Task} {p : Task → Bool} {t : Task}
    (h : tasks.find? p = some t) : (tasks ++ l2).find? p = some t := by
  rw [List.find?_append, h]
  rfl

theorem mapSet_fresh {tasks : List Task} {task : Task}
    (h : task.position ∉ tasks.map (fun t => t.position)) :
    mapSet tasks task = tasks ++ [task] := by
  have hany : tasks.any (fun t => t.position == task.position) = false := by
    cases hA : tasks.any (fun t => t.position == task.position) with
    | false => rfl
    | true =>
      obtain ⟨t, ht, heq⟩ := List.any_eq_true.mp hA
      exact absurd (List.mem_map.mpr ⟨t, ht, by simpa using heq⟩) h
  simp [mapSet, hany]

theorem buildTasks_ok_aux :
    ∀ (records : List TaskRecord) (tasks : List Task),
      (tasks.map (fun t => t.position) ++ records.map (fun r => r.position)).Nodup →
      parentsPrecedeAux (tasks.map (fun t => t.position)) records = true →
      linksOK tasks →
      ∃ tasks2, buildTasks tasks records = Except.ok tasks2 ∧ linksOK tasks2 ∧
        tasks2.map (fun t => t.position) =
          tasks.map (fun t => t.position) ++ records.map (fun r => r.position) := by
  intro records
  induction records with
  | nil =>
    intro tasks _ _ hlinks
    exact ⟨tasks, rfl, hlinks, by simp⟩
  | cons r rs ih =>
    intro tasks hnd hpp hlinks
    rw [parentsPrecedeAux, Bool.and_eq_true] at hpp
    obtain ⟨hguard, hrest⟩ := hpp
    have hfresh : r.position ∉ tasks.map (fun t => t.position) := by
      intro hmem
      have hnd2 : (tasks.map (fun t => t.position) ++
          (r.position :: rs.map (fun x => x.position))).Nodup := by simpa using hnd
      rcases List.nodup_append.mp hnd2 with ⟨_, _, hdisj⟩
      exact hdisj hmem (List.mem_cons_self _ _)
    by_cases hpar : 0 < r.parent
    · -- the record declares a parent; the guard says it was seen before
      have hcont : ((tasks.map (fun t => t.position)).contains r.parent.toNat) = true := by
        have hdec : decide (r.parent ≤ 0) = false := decide_eq_false (by omega)
        rw [hdec] at hguard
        simpa using hguard
      have hpmem : r.parent.toNat ∈ tasks.map (fun t => t.position) := by
        simpa using hcont
      obtain ⟨tp0, htp0mem, htp0pos⟩ := List.mem_map.mp hpmem
      have hfind : ∃ tp, tasks.find? (fun u => u.position == r.parent.toNat) = some tp := by
        have hs : (tasks.find? (fun u => u.position == r.parent.toNat)).isSome :=
          List.find?_isSome.mpr ⟨tp0, htp0mem, by simp [htp0pos]⟩
        exact Option.isSome_iff_exists.mp hs
      obtain ⟨tp, htp⟩ := hfind
      have htppos : tp.position = r.parent.toNat := by
        have := List.find?_some htp
        simpa using this
      have hstep : buildStep tasks r =
          Except.ok (mapSet (pushChild tasks r.parent.toNat r.position) (recTask r)) := by
        rw [buildStep, if_pos hpar, htp]
      have hpositions : (pushChild tasks r.parent.toNat r.position).map
          (fun t => t.position) = tasks.map (fun t => t.position) :=
        pushChild_map_position tasks r.parent.toNat r.position
      have hset : mapSet (pushChild tasks r.parent.toNat r.position) (recTask r) =
          pushChild tasks r.parent.toNat r.position ++ [recTask r] := by
        refine mapSet_fresh ?_
        rw [hpositions]
        simpa [recTask] using hfresh
      set tasks2 := pushChild tasks r.parent.toNat r.position ++ [recTask r] with htasks2
      have hpositions2 : tasks2.map (fun t => t.position) =
          tasks.map (fun t => t.position) ++ [r.position] := by
        simp [htasks2, hpositions, recTask]
      have hlinks2 : linksOK tasks2 := by
        intro t ht pq hpq
        rcases List.mem_append.mp ht with htl | htr
        · -- an already-present task, possibly with an extended children list
          obtain ⟨t0, ht0, rfl⟩ := List.mem_map.mp htl
          rw [pushFun_parent] at hpq
          obtain ⟨tp1, htp1, hmem1⟩ := hlinks t0 ht0 pq hpq
          refine ⟨pushFun r.parent.toNat r.position tp1, ?_, ?_⟩
          · refine find?_append_left ?_
            rw [pushChild_find?, htp1]
            rfl
          · rw [pushFun_position]
            exact pushFun_children_sub _ _ _ hmem1
        · -- the freshly inserted task, linked into its parent
          have ht' : t = recTask r := by simpa using htr
          subst ht'
          have hpq2 : pq = r.parent.toNat := by
            rw [recTask] at hpq
            simp only [if_pos hpar] at hpq
            exact (Option.some_injective _ hpq).symm
          subst hpq2
          refine ⟨pushFun r.parent.toNat r.position tp, ?_, ?_⟩
          · refine find?_append_left ?_
            rw [pushChild_find?, htp]
            rfl
          · rw [pushFun, if_pos (by simp [htppos])]
            simp [recTask]
      have hnd3 : ((tasks2.map (fun t => t.position)) ++ rs.map (fun x => x.position)).Nodup := by
        rw [hpositions2]
        simpa [List.append_assoc] using hnd
      have hpp3 : parentsPrecedeAux (tasks2.map (fun t => t.position)) rs = true := by
        rw [hpositions2]
        exact hrest
      obtain ⟨tasks3, hb3, hl3, hp3⟩ := ih tasks2 hnd3 hpp3 hlinks2
      refine ⟨tasks3, ?_, hl3, ?_⟩
      · rw [buildTasks_cons, hstep, hset]
        exact hb3
      · rw [hp3, hpositions2]
        simp
    · -- a root record: no parent is linked
      have hstep : buildStep tasks r = Except.ok (mapSet tasks (recTask r)) := by
        rw [buildStep, if_neg hpar]
      have hset : mapSet tasks (recTask r) = tasks ++ [recTask r] := by
        refine mapSet_fresh ?_
        simpa [recTask] using hfresh
      set tasks2 := tasks ++ [recTask r] with htasks2
      have hpositions2 : tasks2.map (fun t => t.position) =
          tasks.map (fun t => t.position) ++ [r.position] := by
        simp [htasks2, recTask]
      have hlinks2 : linksOK tasks2 := by
        intro t ht pq hpq
        rcases List.mem_append.mp ht with htl | htr
        · obtain ⟨tp1, htp1, hmem1⟩ := hlinks t htl pq hpq
          exact ⟨tp1, find?_append_left htp1, hmem1⟩
        · have ht' : t = recTask r := by simpa using htr
          subst ht'
          rw [recTask] at hpq
          simp only [if_neg hpar] at hpq
          exact Option.noConfusion hpq
      have hnd3 : ((tasks2.map (fun t => t.position)) ++ rs.map (fun x => x.position)).Nodup := by
        rw [hpositions2]
        simpa [List.append_assoc] using hnd
      have hpp3 : parentsPrecedeAux (tasks2.map (fun t => t.position)) rs = true := by
        rw [hpositions2]
        exact hrest
      obtain ⟨tasks3, hb3, hl3, hp3⟩ := ih tasks2 hnd3 hpp3 hlinks2
      refine ⟨tasks3, ?_, hl3, ?_⟩
      · rw [buildTasks_cons, hstep, hset]
        exact hb3
      · rw [hp3, hpositions2]
        simp

theorem buildTasks_append (tasks : List Task) (l1 l2 : List TaskRecord) :
    buildTasks tasks (l1 ++ l2) =
      match buildTasks tasks l1 with
      | Except.ok tasks2 => buildTasks tasks2 l2
      | Except.error e => Except.error e := by
  induction l1 generalizing tasks with
  | nil => rfl
  | cons r rs ih =>
    rw [List.cons_append, buildTasks, buildTasks]
    cases buildStep tasks r with
    | error e => rfl
    | ok tasks2 => exact ih tasks2

/-- C8: the tree builder fails fast with a MissingParent error on the
first record whose declared parent is not yet in the map, and on inputs
whose parents all precede them (with the unique positions the extractor
guarantees) it succeeds with every parent link realised in the parent's
children list. -/
theorem makeTaskMap_parent_contract :
    (∀ (settings : MaidPluginSettings) (rs1 : List TaskRecord) (r : TaskRecord)
        (rs2 : List TaskRecord) (tasks : List Task),
      buildTasks [] rs1 = Except.ok tasks →
      0 < r.parent →
      tasks.find? (fun t => t.position == r.parent.toNat) = none →
      makeTaskMap settings (rs1 ++ r :: rs2) = Except.error "MissingParent") ∧
    (∀ (settings : MaidPluginSettings) (records : List TaskRecord),
      (records.map (fun r => r.position)).Nodup →
      parentsPrecede records = true →
      ∃ m : TaskMap, makeTaskMap settings records = Except.ok m ∧
        m.settings = settings ∧
        m.tasks.map (fun t => t.position) = records.map (fun r => r.position) ∧
        ∀ t ∈ m.tasks, ∀ p, t.parentTaskPosition = some p →
          ∃ tp, m.getOptional p = some tp ∧ t.position ∈ tp.children) := by
  constructor
  · intro settings rs1 r rs2 tasks h1 hpar hmiss
    have hstep : buildStep tasks r = Except.error "MissingParent" := by
      rw [buildStep, if_pos hpar, hmiss]
    have herr : buildTasks [] (rs1 ++ r :: rs2) = Except.error "MissingParent" := by
      rw [buildTasks_append, h1]
      show buildTasks tasks (r :: rs2) = Except.error "MissingParent"
      rw [buildTasks_cons, hstep]
    rw [makeTaskMap, herr]
  · intro settings records hnd hpp
    obtain ⟨tasks2, hb, hl, hpos⟩ := buildTasks_ok_aux records []
      (by simpa using hnd) (by simpa [parentsPrecede] using hpp) (by intro t ht; simp at ht)
    refine ⟨{ tasks := tasks2, settings := settings }, ?_, rfl, by simpa using hpos, ?_⟩
    · rw [makeTaskMap, hb]
    · intro t ht p hpq
      exact hl t ht p hpq

theorem makeTaskMap_parent_contract_witness :
    (c8Records.map (fun r => r.position)).Nodup ∧
    parentsPrecede c8Records = true ∧
    makeTaskMap c8Settings c8Records = Except.ok c8Map ∧
    c8Map.settings = c8Settings ∧
    c8Map.tasks.map (fun t => t.position) = c8Records.map (fun r => r.position) := by
  obtain ⟨m2, hmk, hset, hpos, -⟩ :=
    makeTaskMap_parent_contract.2 c8Settings c8Records (by decide) (by decide)
  have hm2 : m2 = c8Map := by
    have h3 : makeTaskMap c8Settings c8Records = Except.ok c8Map := rfl
    have := hmk.symm.trans h3
    simpa using this
  rw [hm2] at hmk hset hpos
  exact ⟨by decide, by decide, hmk, hset, hpos⟩

/-- C3: on a forest with no eligible task (here: every task is done) the
sampler does not return the explicit no-selection result; the reduce
call over the empty weight list throws a TypeError instead. -/
theorem rollTask_throws_on_empty_eligible :
    allDoneMap.tasks.all (fun t => t.state != some ' ') = true ∧
    eligiblePairs allDoneMap = [] ∧
    rollTask allDoneMap 0 =
      Except.error "TypeError: Reduce of empty array with no initial value" :=
  ⟨by decide, by decide, rfl⟩

theorem foldl_add_eq : ∀ (xs : List Int) (x : Int),
    xs.foldl (fun a b => a + b) x = x + xs.sum := by
  intro xs
  induction xs with
  | nil => intro x; simp
  | cons y ys ih =>
    intro x
    rw [List.foldl_cons, ih (x + y)]
    simp [add_assoc]

theorem jsReduceSum_ok {l : List Int} (h : l ≠ []) : jsReduceSum l = Except.ok l.sum := by
  match l with
  | [] => exact absurd rfl h
  | x :: xs =>
    rw [jsReduceSum, foldl_add_eq]
    simp

theorem eligiblePairs_nonneg (m : TaskMap) :
    ∀ pw ∈ eligiblePairs m, 0 ≤ pw.2 := by
  intro pw hpw
  obtain ⟨task, _, hf⟩ := List.mem_filterMap.mp hpw
  by_cases hs : task.state ≠ some ' '
  · rw [if_pos hs] at hf
    exact Option.noConfusion hf
  · rw [if_neg hs] at hf
    by_cases hneg : m.fetchPriorityI task.position < 0
    · rw [if_pos hneg] at hf
      exact Option.noConfusion hf
    · rw [if_neg hneg] at hf
      have hpw2 : pw = (task.position, m.fetchPriorityI task.position) :=
        (Option.some_injective _ hf).symm
      rw [hpw2]
      show 0 ≤ m.fetchPriorityI task.position
      omega

theorem filterMap_fst_sublist (f : Task → Option (Nat × Int))
    (hf : ∀ t pw, f t = some pw → pw.1 = t.position) :
    ∀ l : List Task,
      ((l.filterMap f).map (fun x => x.1)).Sublist (l.map (fun t => t.position)) := by
  intro l
  induction l with
  | nil => simp
  | cons t ts ih =>
    rw [List.filterMap_cons]
    cases hft : f t with
    | none =>
      rw [List.map_cons]
      exact ih.cons t.position
    | some pw =>
      rw [List.map_cons, List.map_cons, hf t pw hft]
      exact ih.cons₂ t.position

theorem eligiblePairs_fst_sublist (m : TaskMap) :
    ((eligiblePairs m).map (fun x => x.1)).Sublist (m.tasks.map (fun t => t.position)) := by
  refine filterMap_fst_sublist _ ?_ m.tasks
  intro t pw h
  by_cases hs : t.state ≠ some ' '
  · rw [if_pos hs] at h
    exact Option.noConfusion h
  · rw [if_neg hs] at h
    by_cases hneg : m.fetchPriorityI t.position < 0
    · rw [if_pos hneg] at h
      exact Option.noConfusion h
    · rw [if_neg hneg] at h
      rw [← Option.some_injective _ h]

theorem eligiblePairs_fst_nodup {m : TaskMap}
    (hnd : (m.tasks.map (fun t => t.position)).Nodup) :
    ((eligiblePairs m).map (fun x => x.1)).Nodup :=
  hnd.sublist (eligiblePairs_fst_sublist m)

theorem rollChoice_mem {pairs : List (Nat × Int)} {idx : Int} {t : Nat}
    (h : rollChoice pairs idx = some t) : t ∈ pairs.map (fun x => x.1) := by
  induction pairs generalizing idx with
  | nil => simp [rollChoice] at h
  | cons hd rest ih =>
    obtain ⟨a, w⟩ := hd
    rw [rollChoice] at h
    by_cases hlt : idx < w
    · rw [if_pos hlt] at h
      simp [Option.some_injective _ h]
    · rw [if_neg hlt] at h
      exact List.mem_cons_of_mem _ (ih h)

theorem rollChoice_pos {pairs : List (Nat × Int)} (hpos : ∀ pw ∈ pairs, 0 ≤ pw.2) :
    ∀ {idx : Int} {t : Nat}, 0 ≤ idx → rollChoice pairs idx = some t →
      ∃ w, (t, w) ∈ pairs ∧ 0 < w := by
  induction pairs with
  | nil => intro idx t _ h; simp [rollChoice] at h
  | cons hd rest ih =>
    obtain ⟨a, w⟩ := hd
    intro idx t hidx h
    rw [rollChoice] at h
    by_cases hlt : idx < w
    · rw [if_pos hlt] at h
      obtain rfl : a = t := Option.some_injective _ h
      exact ⟨w, List.mem_cons_self _ _, by omega⟩
    · rw [if_neg hlt] at h
      obtain ⟨w2, hmem, hw2⟩ :=
        ih (fun pw hpw => hpos pw (List.mem_cons_of_mem _ hpw)) (by omega) h
      exact ⟨w2, List.mem_cons_of_mem _ hmem, hw2⟩

theorem rollChoice_some_of_lt_sum {pairs : List (Nat × Int)}
    (hpos : ∀ pw ∈ pairs, 0 ≤ pw.2) :
    ∀ {idx : Int}, 0 ≤ idx → idx < (pairs.map (fun x => x.2)).sum →
      ∃ t, rollChoice pairs idx = some t := by
  induction pairs with
  | nil => intro idx _ h2; simp at h2; omega
  | cons hd rest ih =>
    obtain ⟨a, w⟩ := hd
    intro idx hidx hlt
    rw [rollChoice]
    by_cases hcase : idx < w
    · exact ⟨a, by rw [if_pos hcase]⟩
    · rw [if_neg hcase]
      have hrest : ∀ pw ∈ rest, 0 ≤ pw.2 :=
        fun pw hpw => hpos pw (List.mem_cons_of_mem _ hpw)
      refine ih hrest (by omega) ?_
      rw [List.map_cons, List.sum_cons] at hlt
      omega

theorem pair_weight_unique {pairs : List (Nat × Int)}
    (hnd : (pairs.map (fun x => x.1)).Nodup) {t : Nat} {w1 w2 : Int}
    (h1 : (t, w1) ∈ pairs) (h2 : (t, w2) ∈ pairs) : w1 = w2 := by
  induction pairs with
  | nil => simp at h1
  | cons hd rest ih =>
    obtain ⟨a, w⟩ := hd
    rw [List.map_cons, List.nodup_cons] at hnd
    rcases List.mem_cons.mp h1 with he1 | hm1 <;> rcases List.mem_cons.mp h2 with he2 | hm2
    · rw [Prod.mk.injEq] at he1 he2
      omega
    · rw [Prod.mk.injEq] at he1
      exact absurd (List.mem_map.mpr ⟨(t, w2), hm2, by simp [he1.1]⟩) hnd.1
    · rw [Prod.mk.injEq] at he2
      exact absurd (List.mem_map.mpr ⟨(t, w1), hm1, by simp [he2.1]⟩) hnd.1
    · exact ih hnd.2 hm1 hm2

theorem shift_filter_card (P : Int → Prop) [DecidablePred P] (w total : Int)
    (hw : 0 ≤ w) :
    ((Finset.Ico (0 : Int) total).filter (fun k => w ≤ k ∧ P (k - w))).card =
      ((Finset.Ico (0 : Int) (total - w)).filter P).card := by
  have himg : (Finset.Ico (0 : Int) total).filter (fun k => w ≤ k ∧ P (k - w)) =
      ((Finset.Ico (0 : Int) (total - w)).filter P).image (fun j => j + w) := by
    ext k
    simp only [Finset.mem_filter, Finset.mem_Ico, Finset.mem_image]
    constructor
    · rintro ⟨⟨hk0, hkt⟩, hwk, hp⟩
      exact ⟨k - w, ⟨⟨by omega, by omega⟩, hp⟩, by omega⟩
    · rintro ⟨j, ⟨⟨hj0, hjt⟩, hp⟩, rfl⟩
      exact ⟨⟨by omega, by omega⟩, by omega, by simpa using hp⟩
  rw [himg, Finset.card_image_of_injective _ (add_left_injective w)]

theorem rollChoice_count :
    ∀ (pairs : List (Nat × Int)), (∀ pw ∈ pairs, 0 ≤ pw.2) →
      ((pairs.map (fun x => x.1)).Nodup) →
      ∀ t w, (t, w) ∈ pairs →
        ((Finset.Ico (0 : Int) ((pairs.map (fun x => x.2)).sum)).filter
          (fun k => rollChoice pairs k = some t)).card = w.toNat := by
  intro pairs
  induction pairs with
  | nil => intro _ _ t w h; simp at h
  | cons hd rest ih =>
    obtain ⟨a, w0⟩ := hd
    intro hpos hnd t w hmem
    have hw0 : 0 ≤ w0 := hpos (a, w0) (List.mem_cons_self _ _)
    have hrestpos : ∀ pw ∈ rest, 0 ≤ pw.2 :=
      fun pw hpw => hpos pw (List.mem_cons_of_mem _ hpw)
    have hrestsum : 0 ≤ ((rest.map (fun x => x.2)).sum) :=
      List.sum_nonneg (by
        intro x hx
        obtain ⟨pw, hpw, rfl⟩ := List.mem_map.mp hx
        exact hrestpos pw hpw)
    have hsum : ((((a, w0) :: rest).map (fun x => x.2)).sum) =
        w0 + ((rest.map (fun x => x.2)).sum) := by simp
    rw [List.map_cons, List.nodup_cons] at hnd
    rcases List.mem_cons.mp hmem with heq | hmem2
    · -- head pair: the selecting indices are exactly [0, w0)
      rw [Prod.mk.injEq] at heq
      obtain ⟨ht, hw⟩ := heq
      rw [ht, hw]
      have hfc : (Finset.Ico (0 : Int) ((((a, w0) :: rest).map (fun x => x.2)).sum)).filter
            (fun k => rollChoice ((a, w0) :: rest) k = some a) =
          (Finset.Ico (0 : Int) ((((a, w0) :: rest).map (fun x => x.2)).sum)).filter
            (fun k => k < w0) := by
        refine Finset.filter_congr ?_
        intro k _
        rw [rollChoice]
        by_cases hlt : k < w0
        · simp [hlt]
        · rw [if_neg hlt]
          simp only [hlt, iff_false]
          intro hsel
          exact hnd.1 (rollChoice_mem hsel)
      rw [hfc, hsum]
      have hico : (Finset.Ico (0 : Int) (w0 + ((rest.map (fun x => x.2)).sum))).filter
          (fun k => k < w0) = Finset.Ico (0 : Int) w0 := by
        ext k
        simp only [Finset.mem_filter, Finset.mem_Ico]
        omega
      rw [hico, Int.card_Ico]
      simp
    · -- a pair of the tail: shift by the head weight and recurse
      have hne : a ≠ t := by
        intro h
        subst h
        exact hnd.1 (List.mem_map.mpr ⟨(a, w), hmem2, rfl⟩)
      have hfc : (Finset.Ico (0 : Int) ((((a, w0) :: rest).map (fun x => x.2)).sum)).filter
            (fun k => rollChoice ((a, w0) :: rest) k = some t) =
          (Finset.Ico (0 : Int) ((((a, w0) :: rest).map (fun x => x.2)).sum)).filter
            (fun k => w0 ≤ k ∧ rollChoice rest (k - w0) = some t) := by
        refine Finset.filter_congr ?_
        intro k _
        rw [rollChoice]
        by_cases hlt : k < w0
        · rw [if_pos hlt]
          simp only [Option.some.injEq]
          constructor
          · intro h; exact absurd h hne
          · intro h; omega
        · rw [if_neg hlt]
          constructor
          · intro h; exact ⟨by omega, h⟩
          · intro h; exact h.2
      rw [hfc, hsum,
        shift_filter_card (fun j => rollChoice rest j = some t) w0
          (w0 + ((rest.map (fun x => x.2)).sum)) hw0]
      have hsub : w0 + ((rest.map (fun x => x.2)).sum) - w0 =
          (rest.map (fun x => x.2)).sum := by omega
      rw [hsub]
      exact ih hrestpos hnd.2 t w hmem2

/-- C5: with positive eligible-weight total and a drawn index in
[0, total), rollTask performs the subtractive walk over the eligible
pairs in document order and returns its selection; the walk always
selects some task, the number of indices in [0, total) selecting a task
equals its weight (so the selection probability under the uniform draw
is weight over total), and a zero-weight eligible task is never
selected. -/
theorem rollTask_selection_spec :
    ∀ (m : TaskMap) (index : Int),
      (m.tasks.map (fun t => t.position)).Nodup →
      0 ≤ index → index < totalWeight m →
      rollTask m index = Except.ok (rollChoice (eligiblePairs m) index) ∧
      (∃ t, rollChoice (eligiblePairs m) index = some t) ∧
      (∀ t w, (t, w) ∈ eligiblePairs m →
        ((Finset.Ico (0 : Int) (totalWeight m)).filter
          (fun k => rollChoice (eligiblePairs m) k = some t)).card = w.toNat) ∧
      (∀ t, (t, 0) ∈ eligiblePairs m → rollChoice (eligiblePairs m) index ≠ some t) := by
  intro m index hnd hlo hhi
  have hpos := eligiblePairs_nonneg m
  have hfstnd := eligiblePairs_fst_nodup hnd
  have hne : (eligiblePairs m).map (fun x => x.2) ≠ [] := by
    intro hnil
    have : totalWeight m = 0 := by rw [totalWeight, hnil]; rfl
    omega
  have hsum : ((eligiblePairs m).map (fun x => x.2)).sum = totalWeight m := rfl
  refine ⟨?_, ?_, ?_, ?_⟩
  · rw [rollTask, jsReduceSum_ok hne]
    show (if ((eligiblePairs m).map (fun x => x.2)).sum < 1 then (Except.ok none : Except String (Option Nat))
        else Except.ok (rollChoice (eligiblePairs m) index)) =
      Except.ok (rollChoice (eligiblePairs m) index)
    rw [if_neg (by omega)]
  · exact rollChoice_some_of_lt_sum hpos hlo hhi
  · intro t w hmem
    exact rollChoice_count (eligiblePairs m) hpos hfstnd t w hmem
  · intro t hmem hsel
    obtain ⟨w, hwmem, hw⟩ := rollChoice_pos hpos hlo hsel
    have := pair_weight_unique hfstnd hmem hwmem
    omega

theorem rollTask_selection_spec_witness :
    (c5Map.tasks.map (fun t => t.position)).Nodup ∧
    (0 : Int) ≤ 1 ∧ (1 : Int) < totalWeight c5Map ∧
    rollTask c5Map 1 = Except.ok (rollChoice (eligiblePairs c5Map) 1) ∧
    rollChoice (eligiblePairs c5Map) 1 = some 1 ∧
    ((Finset.Ico (0 : Int) (totalWeight c5Map)).filter
      (fun k => rollChoice (eligiblePairs c5Map) k = some 2)).card = (3 : Int).toNat := by
  refine ⟨by decide, by decide, by decide, ?_, by decide, ?_⟩
  · exact (rollTask_selection_spec c5Map 1 (by decide) (by decide) (by decide)).1
  · exact (rollTask_selection_spec c5Map 1 (by decide) (by decide) (by decide)).2.2.1
      2 3 (by decide)

theorem insertLe_perm {α : Type} (le : α → α → Bool) (a : α) :
    ∀ l : List α, (insertLe le a l).Perm (a :: l) := by
  intro l
  induction l with
  | nil => rfl
  | cons b l ih =>
    rw [insertLe]
    by_cases h : le a b = true
    · rw [if_pos h]
    · rw [if_neg h]
      exact (ih.cons b).trans (List.Perm.swap a b l)

theorem sortLe_perm {α : Type} (le : α → α → Bool) :
    ∀ l : List α, (sortLe le l).Perm l := by
  intro l
  induction l with
  | nil => rfl
  | cons a l ih =>
    rw [sortLe]
    exact (insertLe_perm le a (sortLe le l)).trans (ih.cons a)

theorem sortByCmp_perm {α : Type} (cmp : α → α → Int) (l : List α) :
    (sortByCmp cmp l).Perm l :=
  sortLe_perm _ l

theorem stringifyAux_nil (m : TaskMap) (fuel ident : Nat) :
    stringifyAux m fuel [] ident = Except.ok ("", []) := by
  cases fuel <;> rfl

theorem stringifyAux_zero_cons (m : TaskMap) (a : Nat) (l : List Nat) (ident : Nat) :
    stringifyAux m 0 (a :: l) ident = Except.error "fuel exhausted" := rfl

theorem stringifyAux_cons (m : TaskMap) (fuel : Nat) (position : Nat)
    (rest : List Nat) (ident : Nat) :
    stringifyAux m (fuel + 1) (position :: rest) ident =
      match m.getOptional position with
      | none => Except.error "assertion failed"
      | some task =>
        match stringifyAux m fuel task.children (ident + 1) with
        | Except.error e => Except.error e
        | Except.ok (childStr, childTouched) =>
          match stringifyAux m (fuel + 1) rest ident with
          | Except.error e => Except.error e
          | Except.ok (restStr, restTouched) =>
            Except.ok (tabs ident ++ task.rawText ++ "\n" ++ childStr ++ restStr,
              position :: (childTouched ++ restTouched)) := rfl

/-- C6: the bucket classification is exactly the stated case split, it
is mutually exclusive and exhaustive (classify is a function into the
four buckets and membership in a bucket list is equivalent to the
classification), it reads nothing but the state and explicit priority
of the task itself, and an open task with explicit priority 3 always
lands in the prioritized-open bucket. -/
theorem bucket_classification :
    (∀ t : Task,
      (classify t = Bucket.unprioritized ↔
        (t.state = some ' ' ∨ t.state = none) ∧ t.priority = none) ∧
      (classify t = Bucket.prioritizedOpen ↔ t.state = some ' ' ∧ t.priority ≠ none) ∧
      (classify t = Bucket.done ↔ t.state ≠ none ∧ t.state ≠ some ' ') ∧
      (classify t = Bucket.weird ↔ t.state = none ∧ t.priority ≠ none)) ∧
    (∀ m : TaskMap, (m.tasks.map (fun t => t.position)).Nodup →
      ∀ t ∈ rootTasks m, ∀ b : Bucket,
        (t.position ∈ bucketPositions m b ↔ classify t = b)) ∧
    (∀ t : Task, t.state = some ' ' → t.priority = some 3 →
      classify t = Bucket.prioritizedOpen) := by
  refine ⟨?_, ?_, ?_⟩
  · intro t
    unfold classify
    by_cases h1 : (t.state = some ' ' ∨ t.state = none) ∧ t.priority = none
    · rw [if_pos h1]
      refine ⟨by simp [h1], ?_, ?_, ?_⟩ <;> constructor <;> intro h <;>
        first
          | exact Bucket.noConfusion h
          | (exfalso; rcases h1 with ⟨hs | hs, hp⟩ <;> simp [hs, hp] at h)
    · rw [if_neg h1]
      by_cases h2 : t.state = some ' ' ∧ t.priority ≠ none
      · rw [if_pos h2]
        refine ⟨?_, by simp [h2], ?_, ?_⟩ <;> constructor <;> intro h <;>
          first
            | exact Bucket.noConfusion h
            | (exfalso; obtain ⟨hs, hp⟩ := h2; simp [hs, hp] at h; try tauto)
      · by_cases h3 : t.state ≠ none
        · rw [if_neg h2, if_pos h3]
          have hsne : t.state ≠ some ' ' := by
            intro hs
            by_cases hp : t.priority = none
            · exact h1 ⟨Or.inl hs, hp⟩
            · exact h2 ⟨hs, hp⟩
          refine ⟨?_, ?_, by simp [h3, hsne], ?_⟩ <;> constructor <;> intro h <;>
            first
              | exact Bucket.noConfusion h
              | (exfalso; tauto)
        · rw [if_neg h2, if_neg h3]
          have hsnone : t.state = none := by tauto
          have hpne : t.priority ≠ none := by
            intro hp
            exact h1 ⟨Or.inr hsnone, hp⟩
          refine ⟨?_, ?_, ?_, by simp [hsnone, hpne]⟩ <;> constructor <;> intro h <;>
            first
              | exact Bucket.noConfusion h
              | (exfalso; tauto)
  · intro m hnd t ht b
    constructor
    · intro hmem
      obtain ⟨u, hu, hupos⟩ := List.mem_map.mp hmem
      obtain ⟨humem, hub⟩ := List.mem_filter.mp hu
      have hueq : u = t := by
        have hut : u ∈ m.tasks := (List.mem_filter.mp humem).1
        have htt : t ∈ m.tasks := (List.mem_filter.mp ht).1
        exact List.inj_on_of_nodup_map hnd hut htt hupos
      rw [← hueq]
      exact eq_of_beq hub
    · intro hb
      refine List.mem_map.mpr ⟨t, List.mem_filter.mpr ⟨ht, by simp [hb]⟩, rfl⟩
  · intro t hs hp
    unfold classify
    rw [if_neg (by simp [hp]), if_pos (by simp [hs, hp])]

theorem bucket_classification_witness :
    (c6Map.tasks.map (fun t => t.position)).Nodup ∧
    c6Task ∈ rootTasks c6Map ∧
    (c6Task.position ∈ bucketPositions c6Map Bucket.prioritizedOpen ↔
      classify c6Task = Bucket.prioritizedOpen) :=
  ⟨by decide, by decide,
    bucket_classification.2.1 c6Map (by decide) c6Task (by decide) Bucket.prioritizedOpen⟩

theorem prioritizedTaskSortCore_due_equal (tx ty : Task) (px py : Nat) (w : Int) :
    (tx.dueAt ≠ none → ty.dueAt = none → prioritizedTaskSortCore tx ty px py w w = -1) ∧
    (tx.dueAt = none → ty.dueAt ≠ none → prioritizedTaskSortCore tx ty px py w w = 1) := by
  constructor
  · intro hx hy
    obtain ⟨d, hd⟩ := Option.ne_none_iff_exists'.mp hx
    simp [prioritizedTaskSortCore, hd, hy]
  · intro hx hy
    obtain ⟨d, hd⟩ := Option.ne_none_iff_exists'.mp hy
    simp [prioritizedTaskSortCore, hx, hd]

/-- C2 (amended): in the prioritized-open comparator the due-date-first
rule fires only between tasks of equal resolved priority: when the two
precomputed priorities are equal and exactly one of the two tasks has a
dueAt, the task with dueAt sorts first (a negative return sorts the
first argument first, a positive one the second). -/
theorem prioritizedTaskSort_due_equal_priority :
    ∀ (m : TaskMap) (x y : Nat × Int) (tx ty : Task),
      m.getOptional x.1 = some tx → m.getOptional y.1 = some ty → x.2 = y.2 →
      (tx.dueAt ≠ none → ty.dueAt = none → prioritizedTaskSort m x y = -1) ∧
      (tx.dueAt = none → ty.dueAt ≠ none → prioritizedTaskSort m x y = 1) := by
  intro m x y tx ty hx hy hpq
  have hred : prioritizedTaskSort m x y =
      prioritizedTaskSortCore tx ty x.1 y.1 x.2 y.2 := by
    simp only [prioritizedTaskSort, hx, hy]
  rw [hred, hpq]
  exact prioritizedTaskSortCore_due_equal tx ty x.1 y.1 y.2

/-- C2 counterexample: exactly one task of the pair has a dueAt, yet the
comparator returns 1 — sorting the task WITHOUT the due date first —
because the resolved priorities (1 versus 2) differ and the due-date
rule of the source is guarded by equal priority. A negative return is
what would sort the dueAt task first. -/
theorem prioritizedTaskSort_due_cex :
    dueTaskA.dueAt ≠ none ∧ dueTaskB.dueAt = none ∧
    c2Map.fetchPriorityI 0 = 1 ∧ c2Map.fetchPriorityI 1 = 2 ∧
    prioritizedTaskSort c2Map (0, 1) (1, 2) = 1 ∧
    ¬ prioritizedTaskSort c2Map (0, 1) (1, 2) < 0 := by
  decide

theorem prioritizedTaskSort_due_equal_priority_witness :
    c2Map.getOptional 0 = some dueTaskA ∧
    c2Map.getOptional 1 = some dueTaskB ∧
    dueTaskA.dueAt ≠ none ∧ dueTaskB.dueAt = none ∧
    prioritizedTaskSort c2Map (0, 5) (1, 5) = -1 :=
  ⟨by decide, by decide, by decide, by decide,
    (prioritizedTaskSort_due_equal_priority c2Map (0, 5) (1, 5) dueTaskA dueTaskB
      (by decide) (by decide) rfl).1 (by decide) (by decide)⟩

/-- C10: with the reorder feature enabled, every forest whose
prioritized-open bucket of top-level tasks is empty makes reorder throw
the unguarded No inputs error from the unconditional median computation;
no output string is ever produced on such forests. -/
theorem reorder_throws_no_inputs :
    ∀ m : TaskMap, m.settings.reorderFeatureEnabled = true →
      bucketPositions m Bucket.prioritizedOpen = [] →
      reorderTaskList m = Except.error "No inputs" := by
  intro m hen hbuck
  have hpri : reorderPriorities m = [] := by
    rw [reorderPriorities, hbuck]
    rfl
  have hemit : reorderEmit m = Except.error "No inputs" := by
    rw [reorderEmit, hpri]
    simp [median]
  have hcore : reorderCore m = Except.error "No inputs" := by
    rw [reorderCore, hemit]
  rw [reorderTaskList, if_neg (by simp [hen]), hcore]

theorem reorder_throws_no_inputs_witness :
    c10Map.settings.reorderFeatureEnabled = true ∧
    bucketPositions c10Map Bucket.prioritizedOpen = [] ∧
    reorderTaskList c10Map = Except.error "No inputs" :=
  ⟨rfl, by decide, reorder_throws_no_inputs c10Map rfl (by decide)⟩

theorem wf_nodup {m : TaskMap} (h : wf m = true) :
    (m.tasks.map (fun t => t.position)).Nodup := by
  rw [wf, Bool.and_eq_true] at h
  exact of_decide_eq_true h.1

theorem wf_all {m : TaskMap} (h : wf m = true) {t : Task} (ht : t ∈ m.tasks) :
    (match t.parentTaskPosition with
     | none => true
     | some p =>
       match m.getOptional p with
       | none => false
       | some tp => decide (p < t.position) && decide (t.position ∈ tp.children)) = true ∧
    t.children.Nodup ∧
    (∀ c ∈ t.children, (decide (t.position < c) &&
      match m.getOptional c with
      | none => false
      | some tc => tc.parentTaskPosition == some t.position) = true) := by
  rw [wf, Bool.and_eq_true, List.all_eq_true] at h
  have h2 := h.2 t ht
  rw [Bool.and_eq_true, Bool.and_eq_true] at h2
  exact ⟨h2.1.1, of_decide_eq_true h2.1.2, List.all_eq_true.mp h2.2⟩

theorem wf_parent {m : TaskMap} (h : wf m = true) {t : Task} (ht : t ∈ m.tasks)
    {p : Nat} (hp : t.parentTaskPosition = some p) :
    p < t.position ∧ ∃ tp, m.getOptional p = some tp ∧ t.position ∈ tp.children := by
  have h1 := (wf_all h ht).1
  simp only [hp] at h1
  cases hgp : m.getOptional p with
  | none =>
    simp only [hgp] at h1
    exact Bool.noConfusion h1
  | some tp =>
    simp only [hgp, Bool.and_eq_true] at h1
    exact ⟨of_decide_eq_true h1.1, tp, rfl, of_decide_eq_true h1.2⟩

theorem wf_childNodup {m : TaskMap} (h : wf m = true) {t : Task} (ht : t ∈ m.tasks) :
    t.children.Nodup :=
  (wf_all h ht).2.1

theorem wf_child {m : TaskMap} (h : wf m = true) {t : Task} (ht : t ∈ m.tasks)
    {c : Nat} (hc : c ∈ t.children) :
    t.position < c ∧ ∃ tc, m.getOptional c = some tc ∧
      tc.parentTaskPosition = some t.position := by
  have h1 := (wf_all h ht).2.2 c hc
  rw [Bool.and_eq_true] at h1
  refine ⟨of_decide_eq_true h1.1, ?_⟩
  cases hgc : m.getOptional c with
  | none =>
    have h2 := h1.2
    simp only [hgc] at h2
    exact Bool.noConfusion h2
  | some tc =>
    have h2 := h1.2
    simp only [hgc] at h2
    exact ⟨tc, rfl, eq_of_beq h2⟩

theorem find?_position_of_mem :
    ∀ (l : List Task), (l.map (fun t => t.position)).Nodup →
      ∀ t ∈ l, l.find? (fun u => u.position == t.position) = some t := by
  intro l
  induction l with
  | nil => intro _ t ht; exact absurd ht (List.not_mem_nil t)
  | cons u l ih =>
    intro hnd t ht
    rw [List.map_cons, List.nodup_cons] at hnd
    rcases List.mem_cons.mp ht with rfl | htl
    · rw [List.find?_cons_of_pos _ (by simp)]
    · have hne : (u.position == t.position) = false := by
        simp only [beq_eq_false_iff_ne, ne_eq]
        intro heq
        exact hnd.1 (heq ▸ List.mem_map.mpr ⟨t, htl, rfl⟩)
      rw [List.find?_cons_of_neg _ (by simp [hne])]
      exact ih hnd.2 t htl

theorem getOptional_of_mem {m : TaskMap}
    (hnd : (m.tasks.map (fun t => t.position)).Nodup) {t : Task} (ht : t ∈ m.tasks) :
    m.getOptional t.position = some t :=
  find?_position_of_mem m.tasks hnd t ht

theorem reach_zero {m : TaskMap} {r x : Nat} (h : ReachD m r x 0) : x = r := by
  cases h
  rfl

theorem reach_prepend {m : TaskMap} {r c x : Nat} {d : Nat} {tr : Task}
    (hr : m.getOptional r = some tr) (hc : c ∈ tr.children)
    (h : ReachD m c x d) : ReachD m r x (d + 1) := by
  induction h with
  | refl => exact ReachD.step (ReachD.refl r) hr hc
  | step h hb hcc ih => exact ReachD.step ih hb hcc

theorem reach_succ_decompose {m : TaskMap} {r x : Nat} :
    ∀ {d : Nat}, ReachD m r x (d + 1) →
      ∃ tr c, m.getOptional r = some tr ∧ c ∈ tr.children ∧ ReachD m c x d := by
  intro d
  induction d generalizing x with
  | zero =>
    intro h
    cases h with
    | step h1 hb hc =>
      have := reach_zero h1
      subst this
      exact ⟨_, x, hb, hc, ReachD.refl x⟩
  | succ d ih =>
    intro h
    cases h with
    | step h1 hb hc =>
      obtain ⟨tr, c, hr, hc2, h2⟩ := ih h1
      exact ⟨tr, c, hr, hc2, ReachD.step h2 hb hc⟩

theorem reach_grow {m : TaskMap} (hwf : wf m = true) {r x : Nat} {d : Nat}
    (h : ReachD m r x d) : r + d ≤ x := by
  induction h with
  | refl => omega
  | step h hb hc ih =>
    obtain ⟨hmem, hpos⟩ := getOptional_eq_some m hb
    have := (wf_child hwf hmem hc).1
    omega

theorem reach_target_some {m : TaskMap} (hwf : wf m = true) {r x : Nat} {d : Nat}
    (h : ReachD m r x d) (hr : ∃ tr, m.getOptional r = some tr) :
    ∃ tx, m.getOptional x = some tx := by
  cases h with
  | refl => exact hr
  | step h1 hb hc =>
    obtain ⟨hmem, _⟩ := getOptional_eq_some m hb
    obtain ⟨_, tc, htc, _⟩ := wf_child hwf hmem hc
    exact ⟨tc, htc⟩

theorem iterUp_add (m : TaskMap) :
    ∀ (a b x : Nat), iterUp m (a + b) x = (iterUp m a x).bind (fun y => iterUp m b y) := by
  intro a
  induction a with
  | zero =>
    intro b x
    simp [iterUp]
  | succ a ih =>
    intro b x
    have hx : a + 1 + b = (a + b) + 1 := by omega
    rw [hx]
    cases hg : m.getOptional x with
    | none => simp [iterUp, hg]
    | some t =>
      cases hp : t.parentTaskPosition with
      | none => simp [iterUp, hg, hp]
      | some p => simp [iterUp, hg, hp, ih b p]

theorem reach_iterUp {m : TaskMap} (hwf : wf m = true) {r x : Nat} {d : Nat}
    (h : ReachD m r x d) : iterUp m d x = some r := by
  induction h with
  | refl => rfl
  | step h hb hc ih =>
    obtain ⟨hmem, hpos⟩ := getOptional_eq_some m hb
    obtain ⟨_, tc, htc, hpar⟩ := wf_child hwf hmem hc
    simp only [iterUp, htc, hpar, hpos]
    exact ih

theorem iterUp_le {m : TaskMap} (hwf : wf m = true) :
    ∀ (j x z : Nat), iterUp m j x = some z → z + j ≤ x := by
  intro j
  induction j with
  | zero =>
    intro x z h
    have hxz : x = z := by simpa [iterUp] using h
    omega
  | succ j ih =>
    intro x z h
    cases hg : m.getOptional x with
    | none =>
      simp only [iterUp, hg] at h
      exact Option.noConfusion h
    | some t =>
      cases hp : t.parentTaskPosition with
      | none =>
        simp only [iterUp, hg, hp] at h
        exact Option.noConfusion h
      | some p =>
        simp only [iterUp, hg, hp] at h
        obtain ⟨hmem, hpos⟩ := getOptional_eq_some m hg
        have hlt := (wf_parent hwf hmem hp).1
        have := ih p z h
        omega

theorem iterUp_root_stuck {m : TaskMap} {r : Nat} (h : isRootPos m r) {j : Nat}
    (hj : 1 ≤ j) : iterUp m j r = none := by
  obtain ⟨tr, htr, hpar⟩ := h
  obtain ⟨k, rfl⟩ : ∃ k, j = k + 1 := ⟨j - 1, by omega⟩
  simp only [iterUp, htr, hpar]

theorem reach_root_unique {m : TaskMap} (hwf : wf m = true) {r1 r2 x : Nat}
    {d1 d2 : Nat} (h1 : ReachD m r1 x d1) (h2 : ReachD m r2 x d2)
    (hr1 : isRootPos m r1) (hr2 : isRootPos m r2) : r1 = r2 := by
  have hu1 := reach_iterUp hwf h1
  have hu2 := reach_iterUp hwf h2
  rcases Nat.le_total d1 d2 with hle | hle
  · obtain ⟨k, rfl⟩ : ∃ k, d2 = d1 + k := ⟨d2 - d1, by omega⟩
    rw [iterUp_add, hu1] at hu2
    cases k with
    | zero => exact Option.some_injective _ (by simpa [iterUp] using hu2)
    | succ k =>
      rw [show Option.bind (some r1) (fun y => iterUp m (k + 1) y) =
        iterUp m (k + 1) r1 from rfl, iterUp_root_stuck hr1 (by omega)] at hu2
      exact Option.noConfusion hu2
  · obtain ⟨k, rfl⟩ : ∃ k, d1 = d2 + k := ⟨d1 - d2, by omega⟩
    rw [iterUp_add, hu2] at hu1
    cases k with
    | zero => exact (Option.some_injective _ (by simpa [iterUp] using hu1)).symm
    | succ k =>
      rw [show Option.bind (some r2) (fun y => iterUp m (k + 1) y) =
        iterUp m (k + 1) r2 from rfl, iterUp_root_stuck hr2 (by omega)] at hu1
      exact Option.noConfusion hu1

theorem reach_sibling_unique {m : TaskMap} (hwf : wf m = true) {r : Nat} {tr : Task}
    (htr : m.getOptional r = some tr) {c1 c2 x : Nat} (hc1 : c1 ∈ tr.children)
    (hc2 : c2 ∈ tr.children) {d1 d2 : Nat} (h1 : ReachD m c1 x d1)
    (h2 : ReachD m c2 x d2) : c1 = c2 := by
  obtain ⟨hmem, hpos⟩ := getOptional_eq_some m htr
  have key : ∀ {a b : Nat} {da db : Nat}, a ∈ tr.children → b ∈ tr.children →
      ReachD m a x da → ReachD m b x db → da ≤ db → a = b := by
    intro a b da db ha hb hha hhb hle
    have hua := reach_iterUp hwf hha
    have hub := reach_iterUp hwf hhb
    obtain ⟨k, rfl⟩ : ∃ k, db = da + k := ⟨db - da, by omega⟩
    rw [iterUp_add, hua] at hub
    have hub2 : iterUp m k a = some b := hub
    cases k with
    | zero =>
      have hab : a = b := by simpa [iterUp] using hub2
      exact hab.symm ▸ rfl
    | succ k =>
      exfalso
      obtain ⟨hlt_a, ta, hta, hpar_a⟩ := wf_child hwf hmem ha
      have hlt_b := (wf_child hwf hmem hb).1
      simp only [iterUp, hta, hpar_a, hpos] at hub2
      cases k with
      | zero =>
        have hrb : r = b := by simpa [iterUp] using hub2
        omega
      | succ k =>
        have := iterUp_le hwf (k + 1) r b hub2
        omega
  rcases Nat.le_total d1 d2 with hle | hle
  · exact key hc1 hc2 h1 h2 hle
  · exact (key hc2 hc1 h2 h1 hle).symm

theorem preorder_mem_iff {m : TaskMap} (hwf : wf m = true) :
    ∀ (fuel r x : Nat),
      x ∈ preorderTree m fuel r ↔
        ((∃ tr, m.getOptional r = some tr) ∧ ∃ d, d < fuel ∧ ReachD m r x d) := by
  intro fuel
  induction fuel with
  | zero =>
    intro r x
    simp [preorderTree]
  | succ fuel ih =>
    intro r x
    cases hr : m.getOptional r with
    | none =>
      simp only [preorderTree, hr]
      constructor
      · intro h
        exact absurd h (List.not_mem_nil x)
      · rintro ⟨⟨tr, htr⟩, -⟩
        exact Option.noConfusion htr
    | some tr =>
      simp only [preorderTree, hr]
      constructor
      · intro h
        rcases List.mem_cons.mp h with rfl | hfm
        · exact ⟨⟨tr, rfl⟩, 0, by omega, ReachD.refl x⟩
        · obtain ⟨c, hcmem, hcx⟩ := List.mem_flatMap.mp hfm
          obtain ⟨⟨tc, htc⟩, d, hd, hreach⟩ := (ih c x).mp hcx
          exact ⟨⟨tr, rfl⟩, d + 1, by omega, reach_prepend hr hcmem hreach⟩
      · rintro ⟨-, d, hd, hreach⟩
        cases d with
        | zero =>
          rw [reach_zero hreach]
          exact List.mem_cons_self _ _
        | succ d =>
          obtain ⟨tr2, c, hr2, hc, h2⟩ := reach_succ_decompose hreach
          have htr2 : tr2 = tr := by
            have hcomb : some tr2 = some tr := hr2 ▸ hr
            exact Option.some_injective _ hcomb
          subst htr2
          refine List.mem_cons_of_mem _ (List.mem_flatMap.mpr ⟨c, hc, ?_⟩)
          refine (ih c x).mpr ⟨?_, d, by omega, h2⟩
          obtain ⟨hmem, -⟩ := getOptional_eq_some m hr
          obtain ⟨-, tc, htc, -⟩ := wf_child hwf hmem hc
          exact ⟨tc, htc⟩

theorem preorder_min {m : TaskMap} (hwf : wf m = true) {fuel r x : Nat}
    (h : x ∈ preorderTree m fuel r) : r ≤ x := by
  obtain ⟨-, d, -, hreach⟩ := (preorder_mem_iff hwf fuel r x).mp h
  have := reach_grow hwf hreach
  omega

theorem preorder_target_mem {m : TaskMap} (hwf : wf m = true) {fuel r x : Nat}
    (h : x ∈ preorderTree m fuel r) : x ∈ m.tasks.map (fun t => t.position) := by
  obtain ⟨hr, d, -, hreach⟩ := (preorder_mem_iff hwf fuel r x).mp h
  obtain ⟨tx, htx⟩ := reach_target_some hwf hreach hr
  obtain ⟨hmem, hpos⟩ := getOptional_eq_some m htx
  exact List.mem_map.mpr ⟨tx, hmem, hpos⟩

theorem preorder_nodup {m : TaskMap} (hwf : wf m = true) :
    ∀ (fuel r : Nat), (preorderTree m fuel r).Nodup := by
  intro fuel
  induction fuel with
  | zero => intro r; simp [preorderTree]
  | succ fuel ih =>
    intro r
    cases hr : m.getOptional r with
    | none => simp [preorderTree, hr]
    | some tr =>
      simp only [preorderTree, hr]
      rw [List.nodup_cons]
      obtain ⟨hmemtr, hpostr⟩ := getOptional_eq_some m hr
      constructor
      · intro hmem
        obtain ⟨c, hcmem, hcx⟩ := List.mem_flatMap.mp hmem
        have h1 : c ≤ r := preorder_min hwf hcx
        have h2 := (wf_child hwf hmemtr hcmem).1
        omega
      · rw [List.nodup_flatMap]
        constructor
        · intro c _
          exact ih c
        · refine (wf_childNodup hwf hmemtr).pairwise_of_forall_ne ?_
          intro c1 hc1 c2 hc2 hne
          simp only [Function.onFun]
          intro x hx1 hx2
          obtain ⟨-, d1, -, hreach1⟩ := (preorder_mem_iff hwf fuel c1 x).mp hx1
          obtain ⟨-, d2, -, hreach2⟩ := (preorder_mem_iff hwf fuel c2 x).mp hx2
          exact hne (reach_sibling_unique hwf hr hc1 hc2 hreach1 hreach2)

theorem foldr_max_le : ∀ (l : List Task), ∀ t ∈ l,
    t.position ≤ l.foldr (fun u acc => max u.position acc) 0 := by
  intro l
  induction l with
  | nil => intro t ht; exact absurd ht (List.not_mem_nil t)
  | cons u l ih =>
    intro t ht
    rw [List.foldr_cons]
    rcases List.mem_cons.mp ht with rfl | htl
    · exact le_max_left _ _
    · exact le_trans (ih t htl) (le_max_right _ _)

theorem position_le_maxPosition {m : TaskMap} {t : Task} (ht : t ∈ m.tasks) :
    t.position ≤ maxPosition m :=
  foldr_max_le m.tasks t ht

theorem rootsPositions_nodup {m : TaskMap} (hwf : wf m = true) :
    (rootsPositions m).Nodup := by
  have hsub : (rootsPositions m).Sublist (m.tasks.map (fun t => t.position)) :=
    List.Sublist.map _ (List.filter_sublist _)
  exact (wf_nodup hwf).sublist hsub

theorem rootsPositions_isRoot {m : TaskMap} (hwf : wf m = true) {r : Nat}
    (hr : r ∈ rootsPositions m) : isRootPos m r := by
  obtain ⟨t, htf, hpos⟩ := List.mem_map.mp hr
  obtain ⟨htm, hroot⟩ := List.mem_filter.mp htf
  refine ⟨t, ?_, ?_⟩
  · rw [← hpos]
    exact getOptional_of_mem (wf_nodup hwf) htm
  · cases hppp : t.parentTaskPosition with
    | none => rfl
    | some p => simp [hppp] at hroot

theorem forestPreorder_cover {m : TaskMap} (hwf : wf m = true) :
    ∀ t ∈ m.tasks, t.position ∈ forestPreorder m := by
  have main : ∀ n, ∀ t ∈ m.tasks, t.position = n → t.position ∈ forestPreorder m := by
    intro n
    induction n using Nat.strong_induction_on with
    | _ n ih =>
      intro t ht hpos
      cases hpp : t.parentTaskPosition with
      | none =>
        have hroot : t ∈ rootTasks m := List.mem_filter.mpr ⟨ht, by simp [hpp]⟩
        refine List.mem_flatMap.mpr ⟨t.position, List.mem_map.mpr ⟨t, hroot, rfl⟩, ?_⟩
        exact (preorder_mem_iff hwf _ _ _).mpr
          ⟨⟨t, getOptional_of_mem (wf_nodup hwf) ht⟩, 0, by omega, ReachD.refl _⟩
      | some p =>
        obtain ⟨hplt, tp, htp, hchild⟩ := wf_parent hwf ht hpp
        obtain ⟨hpmem, hppos⟩ := getOptional_eq_some m htp
        have hcov := ih p (by omega) tp hpmem hppos
        obtain ⟨r, hrmem, hpre⟩ := List.mem_flatMap.mp hcov
        obtain ⟨hsome, d, hd, hreach⟩ := (preorder_mem_iff hwf _ _ _).mp hpre
        rw [hppos] at hreach
        have hreach2 : ReachD m r t.position (d + 1) := ReachD.step hreach htp hchild
        have hgrow := reach_grow hwf hreach2
        have hmax : t.position ≤ maxPosition m := position_le_maxPosition ht
        refine List.mem_flatMap.mpr ⟨r, hrmem, ?_⟩
        exact (preorder_mem_iff hwf _ _ _).mpr ⟨hsome, d + 1, by omega, hreach2⟩
  intro t ht
  exact main t.position t ht rfl

theorem forestPreorder_subset {m : TaskMap} (hwf : wf m = true) :
    ∀ x ∈ forestPreorder m, x ∈ m.tasks.map (fun t => t.position) := by
  intro x hx
  obtain ⟨r, hrm, hpre⟩ := List.mem_flatMap.mp hx
  exact preorder_target_mem hwf hpre

theorem forestPreorder_nodup {m : TaskMap} (hwf : wf m = true) :
    (forestPreorder m).Nodup := by
  rw [forestPreorder, List.nodup_flatMap]
  constructor
  · intro r _
    exact preorder_nodup hwf _ r
  · refine (rootsPositions_nodup hwf).pairwise_of_forall_ne ?_
    intro r1 hr1 r2 hr2 hne
    simp only [Function.onFun]
    intro x hx1 hx2
    obtain ⟨-, d1, -, hreach1⟩ := (preorder_mem_iff hwf _ _ _).mp hx1
    obtain ⟨-, d2, -, hreach2⟩ := (preorder_mem_iff hwf _ _ _).mp hx2
    exact hne (reach_root_unique hwf hreach1 hreach2
      (rootsPositions_isRoot hwf hr1) (rootsPositions_isRoot hwf hr2))

theorem forestPreorder_perm {m : TaskMap} (hwf : wf m = true) :
    (forestPreorder m).Perm (m.tasks.map (fun t => t.position)) := by
  refine List.Subperm.antisymm ?_ ?_
  · exact (forestPreorder_nodup hwf).subperm (fun x hx => forestPreorder_subset hwf x hx)
  · refine (wf_nodup hwf).subperm ?_
    intro x hx
    obtain ⟨t, ht, hpos⟩ := List.mem_map.mp hx
    exact hpos ▸ forestPreorder_cover hwf t ht

theorem stringifyAux_ok (m : TaskMap) :
    ∀ (fuel : Nat) (l : List Nat) (ident : Nat) (s : String) (t : List Nat),
      stringifyAux m fuel l ident = Except.ok (s, t) →
      s = joinStrings (l.map (fun pos => renderTree m fuel ident pos)) ∧
      t = l.flatMap (fun pos => preorderTree m fuel pos) := by
  intro fuel
  induction fuel with
  | zero =>
    intro l ident s t h
    cases l with
    | nil =>
      rw [stringifyAux_nil] at h
      simp only [Except.ok.injEq, Prod.mk.injEq] at h
      obtain ⟨hs, ht⟩ := h
      exact ⟨by simp [← hs, joinStrings], by simp [← ht]⟩
    | cons a as =>
      rw [stringifyAux_zero_cons] at h
      exact Except.noConfusion h
  | succ fuel ihF =>
    intro l
    induction l with
    | nil =>
      intro ident s t h
      rw [stringifyAux_nil] at h
      simp only [Except.ok.injEq, Prod.mk.injEq] at h
      obtain ⟨hs, ht⟩ := h
      exact ⟨by simp [← hs, joinStrings], by simp [← ht]⟩
    | cons pos rest ihL =>
      intro ident s t h
      rw [stringifyAux_cons] at h
      cases hget : m.getOptional pos with
      | none =>
        simp only [hget] at h
        exact Except.noConfusion h
      | some task =>
        simp only [hget] at h
        cases hchild : stringifyAux m fuel task.children (ident + 1) with
        | error e =>
          simp only [hchild] at h
          exact Except.noConfusion h
        | ok cp =>
          obtain ⟨cs, ct⟩ := cp
          simp only [hchild] at h
          cases hrest : stringifyAux m (fuel + 1) rest ident with
          | error e =>
            simp only [hrest] at h
            exact Except.noConfusion h
          | ok rp =>
            obtain ⟨rs, rt⟩ := rp
            simp only [hrest, Except.ok.injEq, Prod.mk.injEq] at h
            obtain ⟨hs, ht⟩ := h
            obtain ⟨hcs, hct⟩ := ihF task.children (ident + 1) cs ct hchild
            obtain ⟨hrs, hrt⟩ := ihL ident rs rt hrest
            constructor
            · rw [← hs, hcs, hrs]
              simp [List.map_cons, joinStrings, renderTree, hget, String.append_assoc]
            · rw [← ht, hct, hrt]
              simp only [List.flatMap_cons, preorderTree, hget, List.cons_append]

theorem stringifyAux_some (m : TaskMap) (hwf : wf m = true) :
    ∀ (fuel : Nat) (l : List Nat) (ident : Nat),
      (∀ pos ∈ l, (∃ tk, m.getOptional pos = some tk) ∧ maxPosition m - pos < fuel) →
      ∃ s t, stringifyAux m fuel l ident = Except.ok (s, t) := by
  intro fuel
  induction fuel with
  | zero =>
    intro l ident hl
    cases l with
    | nil => exact ⟨"", [], stringifyAux_nil m 0 ident⟩
    | cons pos rest =>
      have := (hl pos (List.mem_cons_self _ _)).2
      omega
  | succ fuel ihF =>
    intro l
    induction l with
    | nil => intro ident _; exact ⟨"", [], stringifyAux_nil m _ ident⟩
    | cons pos rest ihL =>
      intro ident hl
      obtain ⟨⟨tk, htk⟩, hfuel⟩ := hl pos (List.mem_cons_self _ _)
      obtain ⟨hmem, hpos⟩ := getOptional_eq_some m htk
      have hchildren : ∀ c ∈ tk.children,
          (∃ tc, m.getOptional c = some tc) ∧ maxPosition m - c < fuel := by
        intro c hc
        obtain ⟨hlt, tc, htc, -⟩ := wf_child hwf hmem hc
        refine ⟨⟨tc, htc⟩, ?_⟩
        have hcmax : c ≤ maxPosition m :=
          (getOptional_eq_some m htc).2 ▸ position_le_maxPosition (getOptional_eq_some m htc).1
        omega
      obtain ⟨cs, ct, hchild⟩ := ihF tk.children (ident + 1) hchildren
      obtain ⟨rs, rt, hrest⟩ := ihL ident (fun q hq => hl q (List.mem_cons_of_mem _ hq))
      refine ⟨tabs ident ++ tk.rawText ++ "\n" ++ cs ++ rs, pos :: (ct ++ rt), ?_⟩
      rw [stringifyAux_cons]
      simp only [htk, hchild, hrest]

theorem classify_filter_perm (l : List Task) :
    (l.filter (fun a => classify a == Bucket.weird) ++
      (l.filter (fun a => classify a == Bucket.unprioritized) ++
        (l.filter (fun a => classify a == Bucket.prioritizedOpen) ++
          l.filter (fun a => classify a == Bucket.done)))).Perm l := by
  have h1 := List.filter_append_perm (fun a => classify a == Bucket.weird) l
  have h2 := List.filter_append_perm (fun a => classify a == Bucket.unprioritized)
    (l.filter (fun a => !(classify a == Bucket.weird)))
  have h3 := List.filter_append_perm (fun a => classify a == Bucket.prioritizedOpen)
    ((l.filter (fun a => !(classify a == Bucket.weird))).filter
      (fun a => !(classify a == Bucket.unprioritized)))
  have e1 : (l.filter (fun a => !(classify a == Bucket.weird))).filter
      (fun a => classify a == Bucket.unprioritized) =
      l.filter (fun a => classify a == Bucket.unprioritized) := by
    rw [List.filter_filter]
    refine List.filter_congr ?_
    intro a _
    cases classify a <;> rfl
  have e2 : ((l.filter (fun a => !(classify a == Bucket.weird))).filter
      (fun a => !(classify a == Bucket.unprioritized))).filter
      (fun a => classify a == Bucket.prioritizedOpen) =
      l.filter (fun a => classify a == Bucket.prioritizedOpen) := by
    rw [List.filter_filter, List.filter_filter]
    refine List.filter_congr ?_
    intro a _
    cases classify a <;> rfl
  have e3 : ((l.filter (fun a => !(classify a == Bucket.weird))).filter
      (fun a => !(classify a == Bucket.unprioritized))).filter
      (fun a => !(classify a == Bucket.prioritizedOpen)) =
      l.filter (fun a => classify a == Bucket.done) := by
    rw [List.filter_filter, List.filter_filter]
    refine List.filter_congr ?_
    intro a _
    cases classify a <;> rfl
  rw [e1] at h2
  rw [e2, e3] at h3
  exact (List.Perm.append_left _ ((List.Perm.append_left _ h3).trans h2)).trans h1

theorem buckets_perm_rootsPositions (m : TaskMap) :
    (bucketPositions m Bucket.weird ++
      (bucketPositions m Bucket.unprioritized ++
        (bucketPositions m Bucket.prioritizedOpen ++
          bucketPositions m Bucket.done))).Perm (rootsPositions m) := by
  have h2 := (classify_filter_perm (rootTasks m)).map (fun t => t.position)
  simpa [bucketPositions, rootsPositions, List.map_append] using h2

theorem highLow_perm (m : TaskMap) (med : Rat) (pri : List (Nat × Int)) :
    ((sortByCmp (prioritizedTaskSort m)
        (pri.filter (fun x => decide (med < (x.2 : Rat)))) ++
      sortByCmp (prioritizedTaskSort m)
        (pri.filter (fun x => decide ((x.2 : Rat) ≤ med)))).map
          (fun x => x.1)).Perm (pri.map (fun x => x.1)) := by
  have hle : pri.filter (fun x => decide ((x.2 : Rat) ≤ med)) =
      pri.filter (fun x => !(decide (med < (x.2 : Rat)))) := by
    refine List.filter_congr ?_
    intro x _
    by_cases h : (x.2 : Rat) ≤ med
    · simp [h, not_lt.mpr h]
    · simp [h, lt_of_not_le h]
  refine List.Perm.map _ ?_
  refine List.Perm.trans
    (List.Perm.append (sortByCmp_perm _ _) (sortByCmp_perm _ _)) ?_
  rw [hle]
  exact List.filter_append_perm _ _

theorem reorderEmit_ok_inv (m : TaskMap) (output : String) (touched : List Nat)
    (h : reorderEmit m = Except.ok (output, touched)) :
    ∃ (p : List Nat) (sw su sp sd : String) (tw tu tp td : List Nat),
      p.Perm (bucketPositions m Bucket.prioritizedOpen) ∧
      stringifyAux m (maxPosition m + 1) (bucketPositions m Bucket.weird) 0 =
        Except.ok (sw, tw) ∧
      stringifyAux m (maxPosition m + 1)
        (sortByCmp positionCompare (bucketPositions m Bucket.unprioritized)) 0 =
        Except.ok (su, tu) ∧
      stringifyAux m (maxPosition m + 1) p 0 = Except.ok (sp, tp) ∧
      stringifyAux m (maxPosition m + 1)
        (sortByCmp (doneCompare m) (bucketPositions m Bucket.done)) 0 =
        Except.ok (sd, td) ∧
      output = (if 0 < (bucketPositions m Bucket.weird).length then
          "# weird (bugs in task selection)\n" ++ sw else "") ++
        "# unprioritized\n" ++ su ++ "\n# prioritized\n" ++ sp ++ "\n# done\n" ++ sd ∧
      touched = tw ++ (tu ++ (tp ++ td)) := by
  have hfst : ∀ (med : Rat),
      (finalPrioritizedTasks m med).Perm (bucketPositions m Bucket.prioritizedOpen) := by
    intro med
    rw [finalPrioritizedTasks]
    refine (highLow_perm m med (reorderPriorities m)).trans ?_
    rw [reorderPriorities, List.map_map]
    rw [show ((fun x : Nat × Int => x.1) ∘
      fun position => (position, m.fetchPriorityI position)) = id from rfl, List.map_id]
  rw [reorderEmit] at h
  cases hmed : median ((reorderPriorities m).map (fun x => x.2)) with
  | error e =>
    simp only [hmed] at h
    exact Except.noConfusion h
  | ok priorityMedian =>
    simp only [hmed] at h
    rw [reorderEmitWith] at h
    cases hW : stringifyAux m (maxPosition m + 1) (bucketPositions m Bucket.weird) 0 with
    | error e =>
      simp only [hW] at h
      exact Except.noConfusion h
    | ok wp =>
      obtain ⟨sw, tw⟩ := wp
      simp only [hW] at h
      cases hU : stringifyAux m (maxPosition m + 1)
          (sortByCmp positionCompare (bucketPositions m Bucket.unprioritized)) 0 with
      | error e =>
        simp only [hU] at h
        exact Except.noConfusion h
      | ok up =>
        obtain ⟨su, tu⟩ := up
        simp only [hU] at h
        cases hP : stringifyAux m (maxPosition m + 1)
            (finalPrioritizedTasks m priorityMedian) 0 with
        | error e =>
          simp only [hP] at h
          exact Except.noConfusion h
        | ok pq =>
          obtain ⟨sp2, tp2⟩ := pq
          simp only [hP] at h
          cases hD : stringifyAux m (maxPosition m + 1)
              (sortByCmp (doneCompare m) (bucketPositions m Bucket.done)) 0 with
          | error e =>
            simp only [hD] at h
            exact Except.noConfusion h
          | ok dq =>
            obtain ⟨sd, td⟩ := dq
            simp only [hD, Except.ok.injEq, Prod.mk.injEq] at h
            obtain ⟨ho, ht⟩ := h
            exact ⟨finalPrioritizedTasks m priorityMedian, sw, su, sp2, sd, tw, tu, tp2, td,
              hfst priorityMedian, rfl, rfl, hP, rfl, ho.symm,
              by rw [← ht]; simp [List.append_assoc]⟩

theorem reorderCore_ok_inv (m : TaskMap) (output : String) (touched : List Nat)
    (h : reorderCore m = Except.ok (output, touched)) :
    reorderEmit m = Except.ok (output, touched) := by
  rw [reorderCore] at h
  cases hem : reorderEmit m with
  | error e =>
    simp only [hem] at h
    exact Except.noConfusion h
  | ok pr =>
    obtain ⟨o, tch⟩ := pr
    simp only [hem] at h
    by_cases hany : (m.tasks.any (fun t => !(tch.contains t.position))) = true
    · rw [if_pos hany] at h
      exact Except.noConfusion h
    · rw [if_neg hany] at h
      simp only [Except.ok.injEq, Prod.mk.injEq] at h
      rw [h.1, h.2]

theorem reorderEmit_touched_perm (m : TaskMap) (hwf : wf m = true)
    {output : String} {touched : List Nat}
    (h : reorderEmit m = Except.ok (output, touched)) :
    touched.Perm (m.tasks.map (fun t => t.position)) := by
  obtain ⟨p, sw, su, sp2, sd, tw, tu, tp2, td, hperm, hW, hU, hP, hD, -, ht⟩ :=
    reorderEmit_ok_inv m output touched h
  have hTW := (stringifyAux_ok m _ _ _ _ _ hW).2
  have hTU := (stringifyAux_ok m _ _ _ _ _ hU).2
  have hTP := (stringifyAux_ok m _ _ _ _ _ hP).2
  have hTD := (stringifyAux_ok m _ _ _ _ _ hD).2
  rw [ht, hTW, hTU, hTP, hTD]
  have hflat : (bucketPositions m Bucket.weird).flatMap
        (fun pos => preorderTree m (maxPosition m + 1) pos) ++
      ((sortByCmp positionCompare (bucketPositions m Bucket.unprioritized)).flatMap
        (fun pos => preorderTree m (maxPosition m + 1) pos) ++
        (p.flatMap (fun pos => preorderTree m (maxPosition m + 1) pos) ++
          (sortByCmp (doneCompare m) (bucketPositions m Bucket.done)).flatMap
            (fun pos => preorderTree m (maxPosition m + 1) pos))) =
      (bucketPositions m Bucket.weird ++
        (sortByCmp positionCompare (bucketPositions m Bucket.unprioritized) ++
          (p ++ sortByCmp (doneCompare m) (bucketPositions m Bucket.done)))).flatMap
        (fun pos => preorderTree m (maxPosition m + 1) pos) := by
    simp [List.flatMap_append]
  rw [hflat]
  have hlperm : (bucketPositions m Bucket.weird ++
      (sortByCmp positionCompare (bucketPositions m Bucket.unprioritized) ++
        (p ++ sortByCmp (doneCompare m) (bucketPositions m Bucket.done)))).Perm
      (rootsPositions m) := by
    refine List.Perm.trans ?_ (buckets_perm_rootsPositions m)
    exact List.Perm.append (List.Perm.refl _)
      (List.Perm.append (sortByCmp_perm _ _) (List.Perm.append hperm (sortByCmp_perm _ _)))
  refine List.Perm.trans (hlperm.flatMap_right _) ?_
  exact forestPreorder_perm hwf

/-- C1: on every forest satisfying the builder invariants, when reorder
returns its output every forest position has been emitted exactly once
(the touchedTasks accounting records exactly the emitted positions, and
it is a permutation of the map positions); and whenever the generated
output misses some forest position, the final assertion turns the call
into an internal-consistency error instead of returning the string, so
a task is never silently dropped. -/
theorem reorder_output_complete :
    ∀ m : TaskMap, wf m = true →
      (∀ output touched, reorderCore m = Except.ok (output, touched) →
        ∀ t ∈ m.tasks, touched.count t.position = 1) ∧
      (∀ output touched, reorderEmit m = Except.ok (output, touched) →
        (∃ t ∈ m.tasks, t.position ∉ touched) →
        reorderCore m = Except.error
          "assertion failed: an algorithmic error has occoured. most likely a bug") := by
  intro m hwf
  constructor
  · intro output touched hcore t ht
    have hemit := reorderCore_ok_inv m output touched hcore
    have hperm := reorderEmit_touched_perm m hwf hemit
    rw [hperm.count_eq]
    exact List.count_eq_one_of_mem (wf_nodup hwf) (List.mem_map.mpr ⟨t, ht, rfl⟩)
  · intro output touched hemit hex
    have hany : (m.tasks.any (fun t => !(touched.contains t.position))) = true := by
      obtain ⟨t, ht, hnot⟩ := hex
      refine List.any_eq_true.mpr ⟨t, ht, ?_⟩
      simpa using hnot
    rw [reorderCore]
    simp only [hemit]
    rw [if_pos hany]

theorem reorder_output_complete_witness :
    wf scenarioMap = true ∧
    reorderCore scenarioMap = Except.ok (scenarioOut, scenarioTouched) ∧
    scenarioTouched.count scenarioA.position = 1 ∧
    scenarioTouched.count scenarioB.position = 1 ∧
    scenarioTouched.count scenarioC.position = 1 :=
  ⟨by decide, rfl,
    (reorder_output_complete scenarioMap (by decide)).1
      scenarioOut scenarioTouched rfl scenarioA (by decide),
    (reorder_output_complete scenarioMap (by decide)).1
      scenarioOut scenarioTouched rfl scenarioB (by decide),
    (reorder_output_complete scenarioMap (by decide)).1
      scenarioOut scenarioTouched rfl scenarioC (by decide)⟩

/-- C7: whenever reorder returns an output on a forest satisfying the
builder invariants, the output is exactly the four labelled sections,
each a concatenation of per-root blocks over a permutation of the
corresponding bucket of top-level tasks; each block renders the rawText
of its task followed by the whole subtree one indentation level deeper
with the children in their stored source order, so children are never
reordered or re-bucketed and only top-level tasks change order. -/
theorem reorder_preserves_subtrees :
    ∀ (m : TaskMap) (out : String), wf m = true →
      reorderTaskList m = Except.ok (some out) →
      ∃ w u p d : List Nat,
        w.Perm (bucketPositions m Bucket.weird) ∧
        u.Perm (bucketPositions m Bucket.unprioritized) ∧
        p.Perm (bucketPositions m Bucket.prioritizedOpen) ∧
        d.Perm (bucketPositions m Bucket.done) ∧
        out = (if 0 < (bucketPositions m Bucket.weird).length then
            "# weird (bugs in task selection)\n" ++
              joinStrings (w.map (fun r => renderTree m (maxPosition m + 1) 0 r))
          else "") ++
          "# unprioritized\n" ++
            joinStrings (u.map (fun r => renderTree m (maxPosition m + 1) 0 r)) ++
          "\n# prioritized\n" ++
            joinStrings (p.map (fun r => renderTree m (maxPosition m + 1) 0 r)) ++
          "\n# done\n" ++
            joinStrings (d.map (fun r => renderTree m (maxPosition m + 1) 0 r)) ∧
        (∀ position task, m.getOptional position = some task → ∀ fuel ident,
          renderTree m (fuel + 1) ident position =
            tabs ident ++ task.rawText ++ "\n" ++
              joinStrings (task.children.map (fun c => renderTree m fuel (ident + 1) c))) := by
  intro m out hwf htop
  rw [reorderTaskList] at htop
  by_cases hen : m.settings.reorderFeatureEnabled = false
  · rw [if_pos hen] at htop
    simp at htop
  · rw [if_neg hen] at htop
    cases hcore : reorderCore m with
    | error e =>
      simp only [hcore] at htop
      exact Except.noConfusion htop
    | ok pr =>
      obtain ⟨o, tch⟩ := pr
      simp only [hcore] at htop
      have ho : o = out := by simpa using htop
      subst ho
      have hemit := reorderCore_ok_inv m o tch hcore
      obtain ⟨p, sw, su, sp2, sd, tw, tu, tp2, td, hperm, hW, hU, hP, hD, hout, -⟩ :=
        reorderEmit_ok_inv m o tch hemit
      have hSW := (stringifyAux_ok m _ _ _ _ _ hW).1
      have hSU := (stringifyAux_ok m _ _ _ _ _ hU).1
      have hSP := (stringifyAux_ok m _ _ _ _ _ hP).1
      have hSD := (stringifyAux_ok m _ _ _ _ _ hD).1
      refine ⟨bucketPositions m Bucket.weird,
        sortByCmp positionCompare (bucketPositions m Bucket.unprioritized), p,
        sortByCmp (doneCompare m) (bucketPositions m Bucket.done),
        List.Perm.refl _, sortByCmp_perm _ _, hperm, sortByCmp_perm _ _, ?_, ?_⟩
      · rw [hout, hSW, hSU, hSP, hSD]
      · intro position task hget fuel ident
        simp only [renderTree, hget]

theorem reorder_preserves_subtrees_witness :
    wf scenarioMap = true ∧
    reorderTaskList scenarioMap = Except.ok (some scenarioListOut) ∧
    bucketPositions scenarioMap Bucket.weird = [] ∧
    bucketPositions scenarioMap Bucket.unprioritized = [0] ∧
    bucketPositions scenarioMap Bucket.prioritizedOpen = [1] ∧
    bucketPositions scenarioMap Bucket.done = [] ∧
    scenarioListOut = (if 0 < (bucketPositions scenarioMap Bucket.weird).length then
        "# weird (bugs in task selection)\n" ++
          joinStrings (([] : List Nat).map
            (fun r => renderTree scenarioMap (maxPosition scenarioMap + 1) 0 r))
      else "") ++
      "# unprioritized\n" ++
        joinStrings ([0].map (fun r => renderTree scenarioMap (maxPosition scenarioMap + 1) 0 r)) ++
      "\n# prioritized\n" ++
        joinStrings ([1].map (fun r => renderTree scenarioMap (maxPosition scenarioMap + 1) 0 r)) ++
      "\n# done\n" ++
        joinStrings (([] : List Nat).map
          (fun r => renderTree scenarioMap (maxPosition scenarioMap + 1) 0 r)) := by
  refine ⟨by decide, rfl, by decide, by decide, by decide, by decide, ?_⟩
  obtain ⟨w, u, p, d, hw, hu, hp, hd, hout, -⟩ :=
    reorder_preserves_subtrees scenarioMap scenarioListOut (by decide) rfl
  have hwe : bucketPositions scenarioMap Bucket.weird = [] := by decide
  have hue : bucketPositions scenarioMap Bucket.unprioritized = [0] := by decide
  have hpe : bucketPositions scenarioMap Bucket.prioritizedOpen = [1] := by decide
  have hde : bucketPositions scenarioMap Bucket.done = [] := by decide
  rw [hwe] at hw
  rw [hue] at hu
  rw [hpe] at hp
  rw [hde] at hd
  have hw2 : w = [] := hw.eq_nil
  have hu2 : u = [0] := List.perm_singleton.mp hu
  have hp2 : p = [1] := List.perm_singleton.mp hp
  have hd2 : d = [] := hd.eq_nil
  rw [hw2, hu2, hp2, hd2] at hout
  exact hout

end Maid

